import Mathlib

/-!
Shallow embedding of `src/debate_scheduler.py` (repository
YDucrest/yes-debate-scheduler) and proofs about its claims.

Modelling conventions, fixed throughout:

* Teams and school names are `String`, as in the source (teams are built as
  `"<school> #<k>"` strings; only equality and `<` on strings are ever used).
* Python `dict`s keyed by team resp. school-pair are modelled as total
  functions updated pointwise, mirroring `collections.Counter` /
  `defaultdict` which default to `0` / empty set on missing keys.
* The team → school maps (`t2s`) are total functions `String → String`: the
  spec's data model declares `school_of` a total function, and every caller
  constructs `t2s` together with `teams` so that lookups never fail.
* `random.random()` tie-break values are modelled by an abstract stream
  `rnd : Nat → Nat` consumed one value per candidate, in candidate order,
  exactly as Python's `min(candidates, key=pair_cost)` evaluates the key once
  per element.  Every ordering of finitely many floats is realised by some
  `Nat`-valued stream, and all theorems below quantify over the stream, so no
  behaviour of the seeded float generator is lost.  `random.shuffle` is
  modelled by an explicit permutation parameter `shuf`.
* Python exceptions become `Except` errors: `ValueError` in `build_pairings`
  is `BPErr.value msg`, the `RuntimeError("Stuck: ...")` is `BPErr.stuck`, the
  final `AssertionError` is `BPErr.assertionError`; in the scheduler a
  `KeyError` (dict access on a missing level) is `SchedErr.keyError` and a
  `ZeroDivisionError` is `SchedErr.zeroDiv`.  The unbounded `while` loops are
  run on an explicit fuel; exhausting the fuel (`SchedErr.fuelOut` or the
  `none` branch of `spreadAux`) models divergence of the Python loop, and the
  fuel bounds chosen at the call sites are proved sufficient wherever the
  Python loop terminates.
-/

namespace DS

abbrev Team := String

/-- A match is an (ordered as enumerated, semantically unordered) pair of teams. -/
abbrev Mtch := Team × Team

/-- An assignment in a session: (category label, team A, team B). -/
abbrev Asg := String × Team × Team

/-- Decidable equality of `Except` results (absent from core), so concrete
runs can be checked by evaluation. -/
instance {e a : Type} [DecidableEq e] [DecidableEq a] : DecidableEq (Except e a) :=
  fun x y =>
    match x, y with
    | .error u, .error v =>
      if h : u = v then isTrue (by rw [h])
      else isFalse (by intro he; cases he; exact h rfl)
    | .error _, .ok _ => isFalse (by intro he; cases he)
    | .ok _, .error _ => isFalse (by intro he; cases he)
    | .ok u, .ok v =>
      if h : u = v then isTrue (by rw [h])
      else isFalse (by intro he; cases he; exact h rfl)

/-- Errors of `build_pairings`: `ValueError msg`, the stuck `RuntimeError`,
and the final sanity-check `AssertionError`. -/
inductive BPErr where
  | value (msg : String)
  | stuck
  | assertionError
deriving DecidableEq

/-- `itertools.combinations(teams, 2)` in the same order. -/
def combos : List Team → List Mtch
  | [] => []
  | x :: xs => xs.map (fun y => (x, y)) ++ combos xs

/-- Source `all_allowed_pairs`: all inter-school pairs (no intra-school). -/
def all_allowed_pairs (teams : List Team) (t2s : Team → String) : List Mtch :=
  (combos teams).filter (fun m => !(t2s m.1 == t2s m.2))

/-- Python string `<` (code-point lexicographic) on the character lists;
written structurally recursive so evaluation is possible everywhere
(`String.ltb` is well-founded recursive). -/
def chLt : List Char → List Char → Bool
  | [], [] => false
  | [], _ :: _ => true
  | _ :: _, [] => false
  | a :: as, b :: bs =>
    if a.toNat < b.toNat then true
    else if b.toNat < a.toNat then false
    else chLt as bs

/-- Python string `<` of two strings. -/
def strLt (a b : String) : Bool := chLt a.data b.data

/-- Source `sp_key`: the unordered school pair, smaller school name first
(`tuple(sorted(...))`). -/
def sp_key (t2s : Team → String) (a b : Team) : String × String :=
  if strLt (t2s a) (t2s b) then (t2s a, t2s b) else (t2s b, t2s a)

/-- The cost tuple of `pair_cost` (load, school-pair repeats, opponent repeat
flag, random tie-break), compared lexicographically like a Python tuple. -/
abbrev Cost := Nat × Nat × Nat × Nat

/-- Lexicographic strict comparison of two cost tuples (Python tuple `<`). -/
def lexLt (a b : Cost) : Bool :=
  decide (a.1 < b.1) ||
    (a.1 == b.1 && (decide (a.2.1 < b.2.1) ||
      (a.2.1 == b.2.1 && (decide (a.2.2.1 < b.2.2.1) ||
        (a.2.2.1 == b.2.2.1 && decide (a.2.2.2 < b.2.2.2))))))

/-- State of the greedy loop in `build_pairings`: the `degree` Counter, the
`used_vs` sets, the `school_pair_count` Counter, the accumulated `result`,
and the position `rctr` in the random tie-break stream. -/
structure BPState where
  degree : Team → Nat
  used_vs : Team → Team → Bool
  spc : String × String → Nat
  result : List Mtch
  rctr : Nat

/-- Source `pair_cost` at one candidate, with `rv` the random tie-break value. -/
def pair_cost (t2s : Team → String) (st : BPState) (rv : Nat) (m : Mtch) : Cost :=
  (max (st.degree m.1) (st.degree m.2),
   st.spc (sp_key t2s m.1 m.2),
   (if st.used_vs m.1 m.2 then 1 else 0),
   rv)

/-- Helper for `pickMin`: fold over the remaining candidates keeping the first
element attaining the minimal cost (Python `min` keeps the earliest on ties);
`i` is the index of the next candidate, feeding the random stream. -/
def pickMinAux (cost : Nat → Mtch → Cost) : Nat → Mtch → Cost → List Mtch → Mtch
  | _, best, _, [] => best
  | i, best, bc, m :: rest =>
    let c := cost i m
    if lexLt c bc then pickMinAux cost (i + 1) m c rest
    else pickMinAux cost (i + 1) best bc rest

/-- Python `min(candidates, key=...)`: `none` on the empty list, else the first
candidate with minimal key; the key is evaluated once per element in order. -/
def pickMin (cost : Nat → Mtch → Cost) : List Mtch → Option Mtch
  | [] => none
  | m :: rest => some (pickMinAux cost 1 m (cost 0 m) rest)

/-- The strict candidate filter: neither team at degree `G`, pair not played. -/
def strictC (G : Nat) (pairs : List Mtch) (st : BPState) : List Mtch :=
  pairs.filter (fun m =>
    decide (st.degree m.1 < G) && decide (st.degree m.2 < G) && !(st.used_vs m.1 m.2))

/-- The relaxed candidate filter: both teams below degree `G` (a repeat
opponent is allowed). -/
def relaxedC (G : Nat) (pairs : List Mtch) (st : BPState) : List Mtch :=
  pairs.filter (fun m => decide (st.degree m.1 < G) && decide (st.degree m.2 < G))

/-- The candidate list of one loop iteration: the strict filter, relaxed (a
repeat opponent allowed) when the strict filter leaves nothing. -/
def bp_cands (G : Nat) (pairs : List Mtch) (st : BPState) : List Mtch :=
  if (strictC G pairs st).isEmpty then relaxedC G pairs st else strictC G pairs st

/-- One iteration of the greedy loop of `build_pairings`: build the strict
candidate list, fall back to the relaxed list if it is empty, pick the
cost-minimal candidate and record it.  `none` models the
`RuntimeError("Stuck: cannot complete pairings.")`. -/
def bp_step (t2s : Team → String) (G : Nat) (pairs : List Mtch) (rnd : Nat → Nat)
    (st : BPState) : Option BPState :=
  match pickMin (fun i m => pair_cost t2s st (rnd (st.rctr + i)) m) (bp_cands G pairs st) with
  | none => none
  | some m =>
    some { degree := fun t =>
             st.degree t + (if t = m.1 then 1 else 0) + (if t = m.2 then 1 else 0)
         , used_vs := fun a b =>
             st.used_vs a b || (a == m.1 && b == m.2) || (a == m.2 && b == m.1)
         , spc := fun p => st.spc p + (if p = sp_key t2s m.1 m.2 then 1 else 0)
         , result := st.result ++ [m]
         , rctr := st.rctr + (bp_cands G pairs st).length }

/-- The `for _ in range(required_matches)` loop of `build_pairings`. -/
def bp_loop (t2s : Team → String) (G : Nat) (pairs : List Mtch) (rnd : Nat → Nat) :
    Nat → BPState → Except BPErr BPState
  | 0, st => .ok st
  | k + 1, st =>
    match bp_step t2s G pairs rnd st with
    | none => .error .stuck
    | some st' => bp_loop t2s G pairs rnd k st'

/-- Partial iteration of `bp_step` (used to state when the loop gets stuck). -/
def bp_iter (t2s : Team → String) (G : Nat) (pairs : List Mtch) (rnd : Nat → Nat) :
    Nat → BPState → Option BPState
  | 0, st => some st
  | k + 1, st =>
    match bp_step t2s G pairs rnd st with
    | none => none
    | some st' => bp_iter t2s G pairs rnd k st'

/-- The initial loop state: empty Counters / sets / result, random counter 0. -/
def bp_init : BPState :=
  { degree := fun _ => 0
  , used_vs := fun _ _ => false
  , spc := fun _ => 0
  , result := []
  , rctr := 0 }

/-- Source `build_pairings`: validations in source order, then the greedy
loop, then the final per-team degree sanity check. -/
def build_pairings (teams : List Team) (t2s : Team → String) (games_per_team : Nat)
    (rnd : Nat → Nat) : Except BPErr (List Mtch) :=
  if teams.length < 2 then .error (.value "Need at least 2 teams.")
  else if games_per_team < 1 then .error (.value "games_per_team must be >= 1.")
  else if teams.length * games_per_team % 2 ≠ 0 then
    .error (.value "Total team-slots must be even.")
  else if (all_allowed_pairs teams t2s).isEmpty then
    .error (.value "No inter-school pairs available.")
  else
    match bp_loop t2s games_per_team (all_allowed_pairs teams t2s) rnd
        (teams.length * games_per_team / 2) bp_init with
    | .error e => .error e
    | .ok st =>
      if teams.all (fun t => st.degree t == games_per_team) then .ok st.result
      else .error .assertionError

/-- Number of matches of `l` in which team `t` occurs (a slot-count; since
matches never pair a team with itself this equals the number of matches
containing `t`). -/
def occCount (t : Team) (l : List Mtch) : Nat :=
  l.countP (fun m => m.1 == t) + l.countP (fun m => m.2 == t)

/-- Errors of the session scheduler: a `KeyError` on a missing level key, a
`ZeroDivisionError` in `math.ceil(x / rooms)`, and fuel exhaustion, which
models divergence of the corresponding unbounded Python loop. -/
inductive SchedErr where
  | keyError
  | zeroDiv
  | fuelOut
deriving DecidableEq

/-- The two category levels hard-coded by `schedule_sessions`. -/
inductive Lvl where
  | S1
  | S2
deriving DecidableEq

/-- The category label string of a level. -/
def Lvl.str : Lvl → String
  | .S1 => "S1"
  | .S2 => "S2"

/-- The other level. -/
def Lvl.other : Lvl → Lvl
  | .S1 => .S2
  | .S2 => .S1

/-- A dict whose keys are a subset of `{"S1", "S2"}` (the only shapes either
caller — `main` in `debate_scheduler.py` or `app.py` — ever constructs, with
`"S1"` inserted first); `none` means the key is absent. -/
structure LvlMap (α : Type) where
  s1 : Option α
  s2 : Option α
deriving DecidableEq

/-- Dict lookup that can fail (`m[lvl]` raising `KeyError` is the `none` case
at the use sites). -/
def LvlMap.get : LvlMap α → Lvl → Option α
  | m, .S1 => m.s1
  | m, .S2 => m.s2

/-- Write through an existing key (only ever used on a present key). -/
def LvlMap.set : LvlMap α → Lvl → α → LvlMap α
  | m, .S1, v => { m with s1 := some v }
  | m, .S2, v => { m with s2 := some v }

/-- Map a function over the present values. -/
def LvlMap.map (f : α → β) : LvlMap α → LvlMap β
  | m => ⟨m.s1.map f, m.s2.map f⟩

/-- The list of present values, `"S1"` first (dict insertion order). -/
def LvlMap.vals : LvlMap α → List α
  | m => (match m.s1 with | some v => [v] | none => []) ++
         (match m.s2 with | some v => [v] | none => [])

/-- Lookup with a default (`dict.get(lvl, d)`). -/
def LvlMap.getD (m : LvlMap α) (l : Lvl) (d : α) : α :=
  (m.get l).getD d

/-- Exact `math.ceil(a / b)` for `b ≥ 1`. -/
def cdiv (a b : Nat) : Nat := (a + b - 1) / b

/-- The distinct teams of a match list, as computed by
`list({t for pair in v for t in pair})` (only its length is ever used). -/
def distinctTeams (l : List Mtch) : List Team :=
  (l.foldr (fun m acc => m.1 :: m.2 :: acc) []).dedup

/-- Source `min_sessions_needed`; `rooms = 0` is the `ZeroDivisionError`. -/
def min_sessions_needed (rooms : Nat) (teams_by_level : LvlMap (List Team))
    (games_per_team : Nat) : Except SchedErr Nat :=
  let total_matches := (teams_by_level.vals.map (fun v => v.length * games_per_team / 2)).sum
  if rooms = 0 then .error .zeroDiv
  else .ok (max games_per_team (cdiv total_matches rooms))

/-- One pass of the idle-slot distribution loop, walking the session list from
the LAST session backward (the argument list here is the reversed capacity
list): while `free > 0`, decrement each positive entry once, in order. -/
def sweep : Nat → List Nat → Nat × List Nat
  | free, [] => (free, [])
  | free, c :: rest =>
    if free = 0 then (free, c :: rest)
    else if 0 < c then
      let p := sweep (free - 1) rest
      (p.1, (c - 1) :: p.2)
    else
      let p := sweep free rest
      (p.1, c :: p.2)

/-- The `while free_slots > 0` loop of `capacities_with_free_spread_at_end`
(wrap-around = a new `sweep`), on the reversed capacity list; the fuel models
the possibility of divergence and is proved sufficient at the call site. -/
def spreadAux : Nat → Nat → List Nat → Option (List Nat)
  | _, 0, l => some l
  | 0, _ + 1, _ => none
  | fuel + 1, free, l =>
    let p := sweep free l
    spreadAux fuel p.1 p.2

/-- Distribute `free` idle slots over `caps` from the end (source loop lines
179–186): reverse, sweep repeatedly, reverse back. -/
def spreadFree (free : Nat) (caps : List Nat) : Except SchedErr (List Nat) :=
  match spreadAux free free caps.reverse with
  | some l => .ok l.reverse
  | none => .error .fuelOut

/-- Source `capacities_with_free_spread_at_end`. -/
def capacities_with_free_spread_at_end (rooms total_matches min_sessions : Nat) :
    Except SchedErr (List Nat) :=
  if max 2 min_sessions * rooms < total_matches then
    if rooms = 0 then .error .zeroDiv
    else
      spreadFree (cdiv total_matches rooms * rooms - total_matches)
        (List.replicate (cdiv total_matches rooms) rooms)
  else
    spreadFree (max 2 min_sessions * rooms - total_matches)
      (List.replicate (max 2 min_sessions) rooms)

/-- State while filling one session: the per-level remaining lists, the count
`total_remaining`, the session's `used` team set, and the two per-category
accumulators `s1_matches` / `s2_matches`. -/
structure FillSt where
  rem : LvlMap (List Mtch)
  total : Nat
  used : List Team
  s1 : List Asg
  s2 : List Asg
deriving DecidableEq

/-- Source `pop_match`: the first match of the list whose two teams are both
unused, removed from the list. -/
def pop_match (used : List Team) : List Mtch → Option (Mtch × List Mtch)
  | [] => none
  | m :: rest =>
    if !(used.contains m.1) && !(used.contains m.2) then some (m, rest)
    else
      match pop_match used rest with
      | some (m', rest') => some (m', m :: rest')
      | none => none

/-- Record one placed match: update the level's remaining list, decrement
`total_remaining`, add both teams to `used`, and append the assignment to the
accumulator of its category (`s1_matches` if the level is `"S1"`, else
`s2_matches`), as both the session loop and the drain loop do. -/
def placeUpd (lvl : Lvl) (m : Mtch) (l' : List Mtch) (st : FillSt) : FillSt :=
  { rem := st.rem.set lvl l'
  , total := st.total - 1
  , used := st.used ++ [m.1, m.2]
  , s1 := if lvl = .S1 then st.s1 ++ [(lvl.str, m.1, m.2)] else st.s1
  , s2 := if lvl = .S1 then st.s2 else st.s2 ++ [(lvl.str, m.1, m.2)] }

/-- Source `place_from_level`: pop a compatible match of the level and place
it; `.ok none` is Python's `return False`, and a missing level key is the
`KeyError` raised by `remaining[level]`. -/
def place_from_level (lvl : Lvl) (st : FillSt) : Except SchedErr (Option FillSt) :=
  match st.rem.get lvl with
  | none => .error .keyError
  | some l =>
    match pop_match st.used l with
    | none => .ok none
    | some (m, l') => .ok (some (placeUpd lvl m l' st))

/-- The preferred-level choice of the balanced branch (`for lvl in ("S1",
"S2")`): the first level whose accumulator is below its target and whose
remaining list is nonempty.  (The `if ... >= cap: break` inside that Python
loop is dead code — the enclosing `while` already guarantees `count < cap`
and the count does not change inside the `for` — and `target.get(lvl, 0)`
short-circuits the `remaining[lvl]` access for an absent level, since
`already < 0` is always false; both are modelled accordingly.) -/
def mixChoice (target : LvlMap Nat) (st : FillSt) : Option Lvl :=
  let ok := fun (lvl : Lvl) =>
    decide ((if lvl = .S1 then st.s1.length else st.s2.length) < target.getD lvl 0) &&
      !((st.rem.getD lvl []).isEmpty)
  if ok .S1 then some .S1 else if ok .S2 then some .S2 else none

/-- The fallback level choice shared by both loops (source lines 262–267 and
288–292): prefer the level with more matches remaining (`"S1"` on ties),
switch if its list is empty, give up (`none` models the `break`) when both
are empty. -/
def fallbackChoice (l1 l2 : List Mtch) : Option Lvl :=
  let c0 : Lvl := if l2.length ≤ l1.length then .S1 else .S2
  let cList := if c0 = .S1 then l1 else l2
  let oList := if c0 = .S1 then l2 else l1
  if cList.isEmpty ∧ oList.isEmpty then none
  else if cList.isEmpty then some c0.other else some c0

/-- The session-filling `while` loop (source lines 250–274).  The fuel is
`cap - (len(s1) + len(s2))`: every iteration either places one match (and
recurses with one less fuel) or breaks. -/
def fill_loop (mix : Bool) (target : LvlMap Nat) :
    Nat → FillSt → Except SchedErr FillSt
  | 0, st => .ok st
  | fuel + 1, st =>
    if st.total = 0 then .ok st
    else
      match (if mix then mixChoice target st else none) with
      | some lvl =>
        match place_from_level lvl st with
        | .error e => .error e
        | .ok (some st') => fill_loop mix target fuel st'
        | .ok none =>
          match place_from_level lvl.other st with
          | .error e => .error e
          | .ok (some st') => fill_loop mix target fuel st'
          | .ok none => .ok st
      | none =>
        match st.rem.get .S1, st.rem.get .S2 with
        | some l1, some l2 =>
          match fallbackChoice l1 l2 with
          | none => .ok st
          | some chosen =>
            match place_from_level chosen st with
            | .error e => .error e
            | .ok (some st') => fill_loop mix target fuel st'
            | .ok none =>
              match place_from_level chosen.other st with
              | .error e => .error e
              | .ok (some st') => fill_loop mix target fuel st'
              | .ok none => .ok st
        | _, _ => .error .keyError

/-- The main `for s_idx, cap in enumerate(caps)` loop (source lines 221–278):
one session per planned capacity; a session is `s1_matches + s2_matches`;
when nothing remains an empty session is appended. -/
def run_sessions (mix : Bool) :
    List Nat → LvlMap (List Mtch) → Nat →
    Except SchedErr (List (List Asg) × LvlMap (List Mtch) × Nat)
  | [], rem, total => .ok ([], rem, total)
  | cap :: rest, rem, total =>
    if total = 0 then
      match run_sessions mix rest rem total with
      | .error e => .error e
      | .ok (ss, rem', total') => .ok ([] :: ss, rem', total')
    else
      match fill_loop mix (rem.map (fun l => cdiv l.length (rest.length + 1))) cap
          { rem := rem, total := total, used := [], s1 := [], s2 := [] } with
      | .error e => .error e
      | .ok st' =>
        match run_sessions mix rest st'.rem st'.total with
        | .error e => .error e
        | .ok (ss, rem', total') => .ok ((st'.s1 ++ st'.s2) :: ss, rem', total')

/-- The inner `while` of the drain loop (source lines 287–309): choose the
level with more matches left, switch if empty, break if both empty; pop from
the chosen level, falling back to the other level, and place. -/
def drain_fill : Nat → FillSt → Except SchedErr FillSt
  | 0, st => .ok st
  | fuel + 1, st =>
    if st.total = 0 then .ok st
    else
      match st.rem.get .S1, st.rem.get .S2 with
      | some l1, some l2 =>
        match fallbackChoice l1 l2 with
        | none => .ok st
        | some chosen =>
          match pop_match st.used ((st.rem.get chosen).getD []) with
          | some (m, l') => drain_fill fuel (placeUpd chosen m l' st)
          | none =>
            match pop_match st.used ((st.rem.get chosen.other).getD []) with
            | none => .ok st
            | some (m2, l2') => drain_fill fuel (placeUpd chosen.other m2 l2' st)
      | _, _ => .error .keyError

/-- One batch of the drain loop: `for cap in caps`, each building one extra
session (possibly empty once nothing remains). -/
def drain_caps :
    List Nat → LvlMap (List Mtch) → Nat →
    Except SchedErr (List (List Asg) × LvlMap (List Mtch) × Nat)
  | [], rem, total => .ok ([], rem, total)
  | cap :: rest, rem, total =>
    match drain_fill cap { rem := rem, total := total, used := [], s1 := [], s2 := [] } with
    | .error e => .error e
    | .ok st' =>
      match drain_caps rest st'.rem st'.total with
      | .error e => .error e
      | .ok (ss, rem', total') => .ok ((st'.s1 ++ st'.s2) :: ss, rem', total')

/-- The outer `while total_remaining > 0` drain loop (source lines 281–311);
the fuel models divergence and `total_remaining` is proved a sufficient bound
whenever the Python loop terminates. -/
def drain_loop (mix : Bool) (rooms : Nat) :
    Nat → LvlMap (List Mtch) → Nat → Except SchedErr (List (List Asg))
  | fuel, rem, total =>
    if total = 0 then .ok []
    else
      match fuel with
      | 0 => .error .fuelOut
      | fuel + 1 =>
        match capacities_with_free_spread_at_end rooms total 1 with
        | .error e => .error e
        | .ok caps =>
          match drain_caps caps rem total with
          | .error e => .error e
          | .ok (ss, rem', total') =>
            match drain_loop mix rooms fuel rem' total' with
            | .error e => .error e
            | .ok rest => .ok (ss ++ rest)

/-- Source `schedule_sessions`.  `shuf` is the permutation applied by the two
seeded `random.shuffle` calls; `plv` is `pairings_by_level`. -/
def schedule_sessions (rooms : Nat) (plv : LvlMap (List Mtch)) (games_per_team : Nat)
    (mix : Bool) (shuf : List Mtch → List Mtch) : Except SchedErr (List (List Asg)) :=
  let rem := plv.map shuf
  let total := (rem.vals.map List.length).sum
  let teams_by_level := plv.map distinctTeams
  match min_sessions_needed rooms teams_by_level games_per_team with
  | .error e => .error e
  | .ok est =>
    match capacities_with_free_spread_at_end rooms total est with
    | .error e => .error e
    | .ok caps =>
      match run_sessions mix caps rem total with
      | .error e => .error e
      | .ok (ss, rem', total') =>
        match drain_loop mix rooms total' rem' total' with
        | .error e => .error e
        | .ok ds => .ok (ss ++ ds)

/-- One session check pass of source `verify`: for each assignment whose
category label is a key of `teams_by_level` (others are skipped by the
`continue`), check category membership of both teams, no intra-school, and
that neither team was already used in this session.  `false` models a raised
`AssertionError`. -/
def sessChk (tbl : List (String × List Team)) (t2s : String → Team → String) :
    List Asg → List Team → Bool
  | [], _ => true
  | x :: rest, used =>
    match tbl.lookup x.1 with
    | none => sessChk tbl t2s rest used
    | some roster =>
      roster.contains x.2.1 && roster.contains x.2.2 &&
        !(t2s x.1 x.2.1 == t2s x.1 x.2.2) &&
        !(used.contains x.2.1) && !(used.contains x.2.2) &&
        sessChk tbl t2s rest (used ++ [x.2.1, x.2.2])

/-- The assignments of a session whose category label is a key of
`teams_by_level` (the ones `verify` does not skip). -/
def knownAsgs (tbl : List (String × List Team)) (sess : List Asg) : List Asg :=
  sess.filter (fun x => (tbl.lookup x.1).isSome)

/-- How many of the two slots of one assignment team `t` fills. -/
def asgOcc (t : Team) (x : Asg) : Nat :=
  (if x.2.1 = t then 1 else 0) + (if x.2.2 = t then 1 else 0)

/-- The `per_team` Counter of `verify` at `t`: its total number of slots over
the non-skipped assignments of the whole schedule. -/
def perTeamCount (tbl : List (String × List Team)) (sessions : List (List Asg))
    (t : Team) : Nat :=
  (((sessions.map (knownAsgs tbl)).flatten).map (asgOcc t)).sum

/-- Source `verify` as a Boolean: `true` iff no assert fails (the checks are
written as one conjunction; the Boolean value is order-independent, and
`verify` raises exactly when its sequential run would fail some assert). -/
def verify (sessions : List (List Asg)) (tbl : List (String × List Team))
    (t2s : String → Team → String) (games_per_team rooms : Nat) : Bool :=
  sessions.all (fun sess => decide (sess.length ≤ rooms) && sessChk tbl t2s sess []) &&
    tbl.all (fun p => p.2.all (fun t => perTeamCount tbl sessions t == games_per_team))

/-- The team slots of a list of assignments, in order. -/
def teamsOfAsgs (l : List Asg) : List Team :=
  l.flatMap (fun x => [x.2.1, x.2.2])

/-- The teams of the non-skipped assignments of a session. -/
def sessTeamsKnown (tbl : List (String × List Team)) (sess : List Asg) : List Team :=
  teamsOfAsgs (knownAsgs tbl sess)

/-- The five schedule invariants checked by `verify`, restricted — as the code
is — to assignments whose category label is a key of `teams_by_level`:
session size over `rooms`; a team outside its declared category's roster; an
intra-school match; a team appearing twice within one session; a roster
team's total assignment count different from `games_per_team`. -/
def Viol (sessions : List (List Asg)) (tbl : List (String × List Team))
    (t2s : String → Team → String) (games_per_team rooms : Nat) : Prop :=
  (∃ sess ∈ sessions, rooms < sess.length) ∨
  (∃ sess ∈ sessions, ∃ x ∈ sess, ∃ roster, tbl.lookup x.1 = some roster ∧
    (x.2.1 ∉ roster ∨ x.2.2 ∉ roster)) ∨
  (∃ sess ∈ sessions, ∃ x ∈ sess, (tbl.lookup x.1).isSome ∧
    t2s x.1 x.2.1 = t2s x.1 x.2.2) ∨
  (∃ sess ∈ sessions, ¬ (sessTeamsKnown tbl sess).Nodup) ∨
  (∃ p ∈ tbl, ∃ t ∈ p.2, perTeamCount tbl sessions t ≠ games_per_team)

/-- The matches carried by the assignments of category `l` in a list of
assignments. -/
def sessMatches (l : Lvl) (asgs : List Asg) : List Mtch :=
  (asgs.filter (fun x => x.1 == l.str)).map (fun x => (x.2.1, x.2.2))

/-- The remaining-match list of a level, empty if absent. -/
def remD (rem : LvlMap (List Mtch)) (l : Lvl) : List Mtch :=
  rem.getD l []

/-- The real remaining-match count (what `total_remaining` tracks). -/
def sumRemM (rem : LvlMap (List Mtch)) : Nat :=
  (remD rem .S1).length + (remD rem .S2).length

/-- One match placement, exactly as performed (under `total_remaining > 0`)
by both session-building loops: a compatible match is popped from a present
level and recorded by `placeUpd`. -/
inductive Place : FillSt → FillSt → Prop
  | mk (lvl : Lvl) (l : List Mtch) (m : Mtch) (l' : List Mtch) (st : FillSt)
      (ht : st.total ≠ 0)
      (hg : st.rem.get lvl = some l)
      (hp : pop_match st.used l = some (m, l')) :
      Place st (placeUpd lvl m l' st)

/-- Zero or more placements. -/
def PlaceStar : FillSt → FillSt → Prop := Relation.ReflTransGen Place

/-- A session-building start state: empty `used` set and accumulators. -/
def EmptyAcc (st : FillSt) : Prop := st.used = [] ∧ st.s1 = [] ∧ st.s2 = []

/-- Whether the greedy pairing loop, run `k` steps from `st`, reaches a state
whose relaxed candidate set is empty (the stuck condition). -/
def relaxedEmptyAfter (t2s : Team → String) (G : Nat) (pairs : List Mtch)
    (rnd : Nat → Nat) (st : BPState) (k : Nat) : Bool :=
  match bp_iter t2s G pairs rnd k st with
  | none => false
  | some s => (relaxedC G pairs s).isEmpty

/-- A constant tie-break stream (every tie keeps the earliest candidate). -/
def rnd0 : Nat → Nat := fun _ => 0

/-- The identity shuffle (one possible permutation). -/
def idShuf : List Mtch → List Mtch := id

/-- Fixture: two teams of two distinct schools. -/
def t2sAB : Team → String := fun t => if t = "A1" then "SA" else "SB"

/-- Fixture: teams `A1`, `B1` of school `SX`, team `C1` of school `SY`. -/
def t2sXXY : Team → String := fun t => if t = "C1" then "SY" else "SX"

/-- Fixture: six teams, two per school `SA` / `SB` / `SC`. -/
def t2s6 : Team → String := fun t =>
  if t = "A1" ∨ t = "A2" then "SA" else if t = "B1" ∨ t = "B2" then "SB" else "SC"

/-- Fixture: team `X1` of school `SX`, team `Y1` of school `SY` (used for both
categories of the duplicated-roster run). -/
def t2sXY : Team → String := fun t => if t = "X1" then "SX" else "SY"

/-- Fixture: three teams of three distinct schools. -/
def t2s3 : Team → String := fun t =>
  if t = "A1" then "SA" else if t = "B1" then "SB" else "SC"

/-- Fixture: the pairing list `build_pairings` produces for the six-team
roster (two teams per school) with `G = 2` under the constant tie-break. -/
def pairs6 : List Mtch :=
  [("A1", "B1"), ("A2", "C1"), ("B2", "C2"), ("A1", "B2"), ("A2", "C2"), ("B1", "C1")]

/-- The `teams_by_level` dict of a run, as the callers build it: one entry
per present category, `"S1"` first. -/
def tblOf (o1 : Option (List Mtch)) (teams1 : List Team)
    (o2 : Option (List Mtch)) (teams2 : List Team) : List (String × List Team) :=
  (match o1 with | some _ => [("S1", teams1)] | none => []) ++
  (match o2 with | some _ => [("S2", teams2)] | none => [])

/-- The `t2s_by_level` dict of a run as a curried function: the `"S1"` school
map for key `"S1"`, the `"S2"` school map otherwise. -/
def t2sOf (t2s1 t2s2 : Team → String) : String → Team → String :=
  fun lvl => if lvl = "S1" then t2s1 else t2s2

/-- Fixture for the `verify` claim: a per-level school map. -/
def t2s9 : String → Team → String := fun _ t => if t = "A" then "X" else "Y"

/-- Fixture for the `verify` claim: one roster for level `"S1"` only. -/
def tbl9 : List (String × List Team) := [("S1", ["A", "B"])]

/-- Fixture for the `verify` claim: one session that schedules team `A` (and
`B`) twice, the second time under the unknown category label `"SX"`. -/
def sched9 : List (List Asg) := [[("S1", "A", "B"), ("SX", "A", "B")]]

theorem sweep_zero (l : List Nat) : sweep 0 l = (0, l) := by
  cases l <;> simp [sweep]

theorem sweep_fst_le (f : Nat) (l : List Nat) : (sweep f l).1 ≤ f := by
  induction l generalizing f with
  | nil => simp [sweep]
  | cons c rest ih =>
    simp only [sweep]
    split
    · simp
    · split
      · exact le_trans (ih (f - 1)) (Nat.sub_le f 1)
      · exact ih f

theorem sweep_sum (f : Nat) (l : List Nat) :
    (sweep f l).1 + l.sum = f + (sweep f l).2.sum := by
  induction l generalizing f with
  | nil => simp [sweep]
  | cons c rest ih =>
    simp only [sweep]
    split
    · simp
    next hf =>
      split
      next hc =>
        have := ih (f - 1)
        simp only [List.sum_cons]
        omega
      next hc =>
        have := ih f
        simp only [List.sum_cons]
        omega

theorem sweep_length (f : Nat) (l : List Nat) :
    (sweep f l).2.length = l.length := by
  induction l generalizing f with
  | nil => simp [sweep]
  | cons c rest ih =>
    simp only [sweep]
    split
    · simp
    · split <;> simp [ih]

theorem sweep_lt (f : Nat) (l : List Nat) (hf : f ≠ 0) (hs : l.sum ≠ 0) :
    (sweep f l).1 < f := by
  induction l generalizing f with
  | nil => simp at hs
  | cons c rest ih =>
    simp only [sweep]
    split
    · omega
    next hf0 =>
      split
      next hc =>
        exact lt_of_le_of_lt (sweep_fst_le (f - 1) rest) (by omega)
      next hc =>
        have hc0 : c = 0 := by omega
        have hs' : rest.sum ≠ 0 := by
          simp only [List.sum_cons] at hs; omega
        exact ih f hf hs'

theorem sweep_bound (f R : Nat) (l : List Nat) (h : ∀ x ∈ l, x ≤ R) :
    ∀ x ∈ (sweep f l).2, x ≤ R := by
  induction l generalizing f with
  | nil => simp [sweep]
  | cons c rest ih =>
    have hc := h c (by simp)
    have hr : ∀ x ∈ rest, x ≤ R := fun x hx => h x (by simp [hx])
    simp only [sweep]
    split
    · exact h
    · split
      · intro x hx
        rcases List.mem_cons.mp hx with h1 | h2
        · omega
        · exact ih (f - 1) hr x h2
      · intro x hx
        rcases List.mem_cons.mp hx with h1 | h2
        · omega
        · exact ih f hr x h2

theorem sweep_lb (f b : Nat) (l : List Nat) (h : ∀ x ∈ l, b ≤ x) :
    ∀ x ∈ (sweep f l).2, b - 1 ≤ x := by
  induction l generalizing f with
  | nil => simp [sweep]
  | cons c rest ih =>
    have hc := h c (by simp)
    have hr : ∀ x ∈ rest, b ≤ x := fun x hx => h x (by simp [hx])
    simp only [sweep]
    split
    · intro x hx; exact le_trans (Nat.sub_le b 1) (h x hx)
    · split
      · intro x hx
        rcases List.mem_cons.mp hx with h1 | h2
        · omega
        · exact ih (f - 1) hr x h2
      · intro x hx
        rcases List.mem_cons.mp hx with h1 | h2
        · omega
        · exact ih f hr x h2

theorem sweep_sorted (f : Nat) (l : List Nat) (h : l.Sorted (· ≤ ·)) :
    ((sweep f l).2).Sorted (· ≤ ·) := by
  induction l generalizing f with
  | nil => simp [sweep]
  | cons c rest ih =>
    rw [List.sorted_cons] at h
    obtain ⟨hlb, hrest⟩ := h
    simp only [sweep]
    split
    · exact List.sorted_cons.mpr ⟨hlb, hrest⟩
    · split
      next hc =>
        refine List.sorted_cons.mpr ⟨?_, ih (f - 1) hrest⟩
        intro x hx
        have := sweep_lb (f - 1) c rest hlb x hx
        omega
      next hc =>
        refine List.sorted_cons.mpr ⟨?_, ih f hrest⟩
        intro x hx
        have := sweep_lb f c rest hlb x hx
        omega

theorem spreadAux_spec (fuel free : Nat) (l : List Nat) (R : Nat)
    (hf : free ≤ fuel) (hs : free ≤ l.sum) :
    ∃ l', spreadAux fuel free l = some l' ∧
      l'.sum = l.sum - free ∧ l'.length = l.length ∧
      ((∀ x ∈ l, x ≤ R) → ∀ x ∈ l', x ≤ R) ∧
      (l.Sorted (· ≤ ·) → l'.Sorted (· ≤ ·)) := by
  induction fuel generalizing free l with
  | zero =>
    have : free = 0 := by omega
    subst this
    exact ⟨l, rfl, by omega, rfl, fun h => h, fun h => h⟩
  | succ fuel ih =>
    cases hfree : free with
    | zero => exact ⟨l, rfl, by omega, rfl, fun h => h, fun h => h⟩
    | succ f0 =>
      subst hfree
      have hlt : (sweep (f0 + 1) l).1 < f0 + 1 :=
        sweep_lt (f0 + 1) l (by omega) (by omega)
      have hsum := sweep_sum (f0 + 1) l
      have hlen := sweep_length (f0 + 1) l
      have hs' : (sweep (f0 + 1) l).1 ≤ (sweep (f0 + 1) l).2.sum := by omega
      obtain ⟨l', h1, h2, h3, h4, h5⟩ :=
        ih (sweep (f0 + 1) l).1 (sweep (f0 + 1) l).2 (by omega) hs'
      refine ⟨l', ?_, by omega, by omega, ?_, ?_⟩
      · simpa [spreadAux] using h1
      · intro hb
        exact h4 (sweep_bound (f0 + 1) R l hb)
      · intro hso
        exact h5 (sweep_sorted (f0 + 1) l hso)

theorem sweep_replicate (free n c : Nat) (hle : free ≤ n) (hc : 1 ≤ c) :
    sweep free (List.replicate n c) =
      (0, List.replicate free (c - 1) ++ List.replicate (n - free) c) := by
  induction free generalizing n with
  | zero => simp [sweep_zero]
  | succ f0 ih =>
    cases n with
    | zero => omega
    | succ n0 =>
      rw [List.replicate_succ]
      simp only [sweep]
      rw [if_neg (by omega), if_pos (by omega)]
      simp only [Nat.add_sub_cancel]
      rw [ih n0 (by omega)]
      simp [List.replicate_succ]

theorem cdiv_mul_ge (a b : Nat) (hb : 1 ≤ b) : a ≤ cdiv a b * b := by
  unfold cdiv
  rw [Nat.mul_comm]
  have h1 := Nat.div_add_mod (a + b - 1) b
  have h2 : (a + b - 1) % b < b := Nat.mod_lt _ (by omega)
  omega

theorem spreadFree_spec (S rooms total : Nat) (hR : 1 ≤ rooms) (hge : total ≤ S * rooms) :
    ∃ caps, spreadFree (S * rooms - total) (List.replicate S rooms) = .ok caps ∧
      caps.length = S ∧ caps.sum = total ∧ (∀ c ∈ caps, c ≤ rooms) ∧
      caps.Pairwise (fun a b => b ≤ a) ∧
      (S * rooms - total ≤ S →
        caps = List.replicate (S - (S * rooms - total)) rooms ++
               List.replicate (S * rooms - total) (rooms - 1)) := by
  unfold spreadFree
  have hrev : (List.replicate S rooms).reverse = List.replicate S rooms :=
    List.reverse_replicate S rooms
  have hsum : (List.replicate S rooms).sum = S * rooms := by
    simp [List.sum_replicate, smul_eq_mul]
  obtain ⟨l', h1, h2, h3, h4, h5⟩ :=
    spreadAux_spec (S * rooms - total) (S * rooms - total) (List.replicate S rooms)
      rooms le_rfl (by omega)
  rw [hrev, h1]
  refine ⟨l'.reverse, rfl, ?_, ?_, ?_, ?_, ?_⟩
  · simp [h3]
  · simp only [List.sum_reverse]; omega
  · intro c hc
    exact h4 (by intro x hx; exact le_of_eq (List.eq_of_mem_replicate hx)) c
      (List.mem_reverse.mp hc)
  · have hso : (List.replicate S rooms).Sorted (· ≤ ·) :=
      List.pairwise_replicate.mpr (Or.inr le_rfl)
    have := h5 hso
    exact (List.pairwise_reverse).mpr this
  · intro hle
    have hl' : spreadAux (S * rooms - total) (S * rooms - total) (List.replicate S rooms) =
        some (List.replicate (S * rooms - total) (rooms - 1) ++
              List.replicate (S - (S * rooms - total)) rooms) := by
      cases hfree : S * rooms - total with
      | zero => simp [spreadAux]
      | succ f0 =>
        rw [hfree] at hle
        have hsw := sweep_replicate (f0 + 1) S rooms (by omega) hR
        show spreadAux (f0 + 1) (f0 + 1) (List.replicate S rooms) = _
        rw [spreadAux, hsw]
        all_goals simp [spreadAux]
    rw [hl'] at h1
    cases h1
    rw [List.reverse_append, List.reverse_replicate, List.reverse_replicate]

theorem caps_spec (rooms total m : Nat) (hR : 1 ≤ rooms) :
    ∃ caps, capacities_with_free_spread_at_end rooms total m = .ok caps ∧
      caps.length = (if max 2 m * rooms < total then cdiv total rooms else max 2 m) ∧
      caps.sum = total ∧ (∀ c ∈ caps, c ≤ rooms) ∧
      caps.Pairwise (fun a b => b ≤ a) ∧
      (caps.length * rooms - total ≤ caps.length →
        caps = List.replicate (caps.length - (caps.length * rooms - total)) rooms ++
               List.replicate (caps.length * rooms - total) (rooms - 1)) := by
  unfold capacities_with_free_spread_at_end
  by_cases h : max 2 m * rooms < total
  · rw [if_pos h, if_neg (by omega)]
    obtain ⟨caps, h1, h2, h3, h4, h5, h6⟩ :=
      spreadFree_spec (cdiv total rooms) rooms total hR (cdiv_mul_ge total rooms hR)
    exact ⟨caps, h1, by rw [h2, if_pos h], h3, h4, h5, by rw [h2]; exact h6⟩
  · rw [if_neg h]
    obtain ⟨caps, h1, h2, h3, h4, h5, h6⟩ :=
      spreadFree_spec (max 2 m) rooms total hR (by omega)
    exact ⟨caps, h1, by rw [h2, if_neg h], h3, h4, h5, by rw [h2]; exact h6⟩

/-- C3: for every `R ≥ 1`, total match count `M` and minimum session count
input `m`, `capacities_with_free_spread_at_end` returns a sequence of length
`max 2 m` (grown to `⌈M / R⌉` when `max 2 m * R < M`), every entry at most
`R`, summing exactly to `M`, non-increasing (earlier sessions at least as
full as later ones); and when the `S * R - M` idle slots do not exceed the
session count `S`, they are removed exactly one per session from the end
backward, without wrapping: the result is `S - idle` full sessions followed
by `idle` sessions of capacity `R - 1`. -/
theorem c3_capacity_planning (R M m : Nat) (hR : 1 ≤ R) :
    ∃ caps, capacities_with_free_spread_at_end R M m = .ok caps ∧
      caps.length = (if max 2 m * R < M then cdiv M R else max 2 m) ∧
      caps.sum = M ∧ (∀ c ∈ caps, c ≤ R) ∧
      caps.Pairwise (fun a b => b ≤ a) ∧
      (caps.length * R - M ≤ caps.length →
        caps = List.replicate (caps.length - (caps.length * R - M)) R ++
               List.replicate (caps.length * R - M) (R - 1)) :=
  caps_spec R M m hR

/-- Witness for C3 at `R = 4`, `M = 9`, `m = 3`. -/
theorem c3_capacity_planning_witness :
    ∃ caps, capacities_with_free_spread_at_end 4 9 3 = .ok caps ∧
      caps.length = (if max 2 3 * 4 < 9 then cdiv 9 4 else max 2 3) ∧
      caps.sum = 9 ∧ (∀ c ∈ caps, c ≤ 4) ∧
      caps.Pairwise (fun a b => b ≤ a) ∧
      (caps.length * 4 - 9 ≤ caps.length →
        caps = List.replicate (caps.length - (caps.length * 4 - 9)) 4 ++
               List.replicate (caps.length * 4 - 9) (4 - 1)) :=
  c3_capacity_planning 4 9 3 (by decide)

theorem pickMinAux_mem (cost : Nat → Mtch → Cost) (i : Nat) (best : Mtch) (bc : Cost)
    (l : List Mtch) :
    pickMinAux cost i best bc l = best ∨ pickMinAux cost i best bc l ∈ l := by
  induction l generalizing i best bc with
  | nil => left; rfl
  | cons m rest ih =>
    simp only [pickMinAux]
    split
    · rcases ih (i + 1) m (cost i m) with h | h
      · right; simp [h]
      · right; simp [h]
    · rcases ih (i + 1) best bc with h | h
      · left; exact h
      · right; simp [h]

theorem pickMin_mem (cost : Nat → Mtch → Cost) (l : List Mtch) (m : Mtch)
    (h : pickMin cost l = some m) : m ∈ l := by
  cases l with
  | nil => simp [pickMin] at h
  | cons a rest =>
    simp only [pickMin, Option.some.injEq] at h
    rcases pickMinAux_mem cost 1 a (cost 0 a) rest with h2 | h2 <;> rw [← h]
    · rw [h2]; exact List.mem_cons_self a rest
    · exact List.mem_cons_of_mem a h2

theorem pickMin_none_iff (cost : Nat → Mtch → Cost) (l : List Mtch) :
    pickMin cost l = none ↔ l = [] := by
  cases l <;> simp [pickMin]

theorem strictC_sub (G : Nat) (pairs : List Mtch) (st : BPState) :
    ∀ m ∈ strictC G pairs st, m ∈ relaxedC G pairs st := by
  intro m hm
  rw [strictC, List.mem_filter] at hm
  rw [relaxedC, List.mem_filter]
  refine ⟨hm.1, ?_⟩
  have h2 := hm.2
  simp only [Bool.and_eq_true] at h2 ⊢
  exact h2.1

theorem bp_cands_sub (G : Nat) (pairs : List Mtch) (st : BPState) :
    ∀ m ∈ bp_cands G pairs st, m ∈ relaxedC G pairs st := by
  intro m hm
  rw [bp_cands] at hm
  split at hm
  · exact hm
  · exact strictC_sub G pairs st m hm

theorem bp_cands_nil_iff (G : Nat) (pairs : List Mtch) (st : BPState) :
    bp_cands G pairs st = [] ↔ relaxedC G pairs st = [] := by
  rw [bp_cands]
  split
  next hs => simp
  next hs =>
    constructor
    · intro h; rw [h] at hs; simp at hs
    · intro h
      have hsub := strictC_sub G pairs st
      rw [h] at hsub
      rcases hsl : strictC G pairs st with _ | ⟨a, rest⟩
      · rfl
      · have := hsub a (by rw [hsl]; simp)
        simp at this

theorem bp_step_none_iff (t2s : Team → String) (G : Nat) (pairs : List Mtch)
    (rnd : Nat → Nat) (st : BPState) :
    bp_step t2s G pairs rnd st = none ↔ relaxedC G pairs st = [] := by
  rw [← bp_cands_nil_iff G pairs st]
  unfold bp_step
  cases hp : pickMin (fun i m => pair_cost t2s st (rnd (st.rctr + i)) m)
      (bp_cands G pairs st) with
  | none => simpa using (pickMin_none_iff _ _).mp hp
  | some m =>
    simp only []
    constructor
    · intro h; exact absurd h (by simp)
    · intro h
      rw [h] at hp
      simp [pickMin] at hp

theorem bp_step_some (t2s : Team → String) (G : Nat) (pairs : List Mtch)
    (rnd : Nat → Nat) (st st' : BPState)
    (h : bp_step t2s G pairs rnd st = some st') :
    ∃ m, m ∈ relaxedC G pairs st ∧
      ((strictC G pairs st).isEmpty = false → m ∈ strictC G pairs st) ∧
      st'.result = st.result ++ [m] ∧
      (∀ t, st'.degree t =
        st.degree t + (if t = m.1 then 1 else 0) + (if t = m.2 then 1 else 0)) := by
  unfold bp_step at h
  cases hp : pickMin (fun i m => pair_cost t2s st (rnd (st.rctr + i)) m)
      (bp_cands G pairs st) with
  | none => rw [hp] at h; exact absurd h (by simp)
  | some m =>
    rw [hp] at h
    simp only [Option.some.injEq] at h
    have hmc := pickMin_mem _ _ _ hp
    refine ⟨m, bp_cands_sub G pairs st m hmc, ?_, ?_, ?_⟩
    · intro hne
      rw [bp_cands, hne, if_neg (by simp)] at hmc
      exact hmc
    · rw [← h]
    · intro t; rw [← h]

theorem occCount_append (t : Team) (l1 l2 : List Mtch) :
    occCount t (l1 ++ l2) = occCount t l1 + occCount t l2 := by
  simp only [occCount, List.countP_append]
  omega

theorem occCount_single (t : Team) (m : Mtch) :
    occCount t [m] = (if t = m.1 then 1 else 0) + (if t = m.2 then 1 else 0) := by
  simp only [occCount, List.countP_cons, List.countP_nil, beq_iff_eq, Nat.zero_add]
  congr 1
  · by_cases h : m.1 = t
    · rw [if_pos h, if_pos h.symm]
    · rw [if_neg h, if_neg (fun hh => h hh.symm)]
  · by_cases h : m.2 = t
    · rw [if_pos h, if_pos h.symm]
    · rw [if_neg h, if_neg (fun hh => h hh.symm)]

theorem combos_mem (l : List Team) (x : Mtch) (h : x ∈ combos l) :
    x.1 ∈ l ∧ x.2 ∈ l := by
  induction l with
  | nil => simp [combos] at h
  | cons a xs ih =>
    simp only [combos, List.mem_append, List.mem_map] at h
    rcases h with ⟨y, hy, rfl⟩ | h
    · exact ⟨by simp, by simp [hy]⟩
    · have h2 := ih h
      exact ⟨List.mem_cons_of_mem a h2.1, List.mem_cons_of_mem a h2.2⟩

theorem allowed_pairs_mem (teams : List Team) (t2s : Team → String) (x : Mtch)
    (h : x ∈ all_allowed_pairs teams t2s) :
    (x.1 ∈ teams ∧ x.2 ∈ teams) ∧ t2s x.1 ≠ t2s x.2 := by
  rw [all_allowed_pairs, List.mem_filter] at h
  refine ⟨combos_mem teams x h.1, ?_⟩
  have h2 := h.2
  simpa using h2

theorem bp_loop_inv (teams : List Team) (t2s : Team → String) (G : Nat)
    (rnd : Nat → Nat) (n : Nat) (st st' : BPState)
    (hok : bp_loop t2s G (all_allowed_pairs teams t2s) rnd n st = .ok st')
    (h1 : ∀ t, st.degree t = occCount t st.result)
    (h2 : ∀ x ∈ st.result, t2s x.1 ≠ t2s x.2)
    (h3 : ∀ x ∈ st.result, x.1 ∈ teams ∧ x.2 ∈ teams) :
    (∀ t, st'.degree t = occCount t st'.result) ∧
    (∀ x ∈ st'.result, t2s x.1 ≠ t2s x.2) ∧
    (∀ x ∈ st'.result, x.1 ∈ teams ∧ x.2 ∈ teams) ∧
    st'.result.length = st.result.length + n := by
  induction n generalizing st with
  | zero =>
    simp only [bp_loop, Except.ok.injEq] at hok
    subst hok
    exact ⟨h1, h2, h3, by omega⟩
  | succ n ih =>
    simp only [bp_loop] at hok
    cases hstep : bp_step t2s G (all_allowed_pairs teams t2s) rnd st with
    | none => rw [hstep] at hok; exact absurd hok (by simp)
    | some st1 =>
      rw [hstep] at hok
      obtain ⟨m, hmrel, _, hres, hdeg⟩ := bp_step_some _ _ _ _ _ _ hstep
      have hm_pairs : m ∈ all_allowed_pairs teams t2s :=
        (List.mem_filter.mp hmrel).1
      have hmprops := allowed_pairs_mem teams t2s m hm_pairs
      have g1 : ∀ t, st1.degree t = occCount t st1.result := by
        intro t
        rw [hdeg t, hres, occCount_append, occCount_single, h1 t]
        exact Nat.add_assoc _ _ _
      have g2 : ∀ x ∈ st1.result, t2s x.1 ≠ t2s x.2 := by
        intro x hx
        rw [hres, List.mem_append] at hx
        rcases hx with hx | hx
        · exact h2 x hx
        · simp only [List.mem_singleton] at hx; subst hx; exact hmprops.2
      have g3 : ∀ x ∈ st1.result, x.1 ∈ teams ∧ x.2 ∈ teams := by
        intro x hx
        rw [hres, List.mem_append] at hx
        rcases hx with hx | hx
        · exact h3 x hx
        · simp only [List.mem_singleton] at hx; subst hx; exact hmprops.1
      obtain ⟨k1, k2, k3, k4⟩ := ih st1 hok g1 g2 g3
      refine ⟨k1, k2, k3, ?_⟩
      rw [k4, hres, List.length_append]
      simp only [List.length_singleton]
      omega

theorem bp_ok_spec (teams : List Team) (t2s : Team → String) (G : Nat)
    (rnd : Nat → Nat) (res : List Mtch)
    (hok : build_pairings teams t2s G rnd = .ok res) :
    (∀ t ∈ teams, occCount t res = G) ∧
    (∀ x ∈ res, t2s x.1 ≠ t2s x.2) ∧
    (∀ x ∈ res, x.1 ∈ teams ∧ x.2 ∈ teams) ∧
    res.length = teams.length * G / 2 := by
  unfold build_pairings at hok
  split at hok
  · exact absurd hok (by simp)
  split at hok
  · exact absurd hok (by simp)
  split at hok
  · exact absurd hok (by simp)
  split at hok
  · exact absurd hok (by simp)
  split at hok
  next st hl =>
    exact absurd hok (by simp)
  next st hl =>
    split at hok
    next hall =>
      simp only [Except.ok.injEq] at hok
      subst hok
      obtain ⟨k1, k2, k3, k4⟩ := bp_loop_inv teams t2s G rnd _ bp_init st hl
        (by intro t; simp [bp_init, occCount])
        (by intro x hx; simp [bp_init] at hx)
        (by intro x hx; simp [bp_init] at hx)
      refine ⟨?_, k2, k3, ?_⟩
      · intro t ht
        have := List.all_eq_true.mp hall t ht
        rw [beq_iff_eq] at this
        rw [← k1 t, this]
      · rw [k4]; simp [bp_init]
    · exact absurd hok (by simp)

/-- C1: for every valid input (at least two teams, total school map, positive
`G` with `|teams| * G` even, at least one inter-school pair), whenever
`build_pairings` returns normally its output satisfies the three
postconditions: every team occurs in exactly `G` matches, no match pairs two
teams of the same school, and the match count is exactly `|teams| * G / 2`. -/
theorem c1_build_pairings_postconditions (teams : List Team) (t2s : Team → String)
    (G : Nat) (rnd : Nat → Nat) (res : List Mtch)
    (h2 : 2 ≤ teams.length) (hG : 1 ≤ G) (hev : teams.length * G % 2 = 0)
    (hp : all_allowed_pairs teams t2s ≠ [])
    (hok : build_pairings teams t2s G rnd = .ok res) :
    (∀ t ∈ teams, occCount t res = G) ∧
    (∀ x ∈ res, t2s x.1 ≠ t2s x.2) ∧
    res.length = teams.length * G / 2 := by
  obtain ⟨k1, k2, _, k4⟩ := bp_ok_spec teams t2s G rnd res hok
  exact ⟨k1, k2, k4⟩

/-- Witness for C1: two teams of different schools, `G = 1`. -/
theorem c1_build_pairings_postconditions_witness :
    (∀ t ∈ (["A1", "B1"] : List Team), occCount t [("A1", "B1")] = 1) ∧
    (∀ x ∈ ([("A1", "B1")] : List Mtch), t2sAB x.1 ≠ t2sAB x.2) ∧
    ([("A1", "B1")] : List Mtch).length = (["A1", "B1"] : List Team).length * 1 / 2 :=
  c1_build_pairings_postconditions ["A1", "B1"] t2sAB 1 rnd0 [("A1", "B1")]
    (by decide) (by decide) (by decide) (by decide) (by rfl)

theorem bp_loop_stuck_iff (t2s : Team → String) (G : Nat) (pairs : List Mtch)
    (rnd : Nat → Nat) (n : Nat) (st : BPState) :
    bp_loop t2s G pairs rnd n st = .error .stuck ↔
      ∃ k, k < n ∧ relaxedEmptyAfter t2s G pairs rnd st k = true := by
  induction n generalizing st with
  | zero =>
    simp only [bp_loop]
    constructor
    · intro h; exact absurd h (by simp)
    · rintro ⟨k, hk, _⟩; omega
  | succ n ih =>
    simp only [bp_loop]
    cases hstep : bp_step t2s G pairs rnd st with
    | none =>
      simp only []
      constructor
      · intro _
        refine ⟨0, by omega, ?_⟩
        rw [relaxedEmptyAfter]
        simp only [bp_iter]
        rw [(bp_step_none_iff t2s G pairs rnd st).mp hstep]
        rfl
      · intro _; trivial
    | some st1 =>
      simp only []
      rw [ih st1]
      constructor
      · rintro ⟨k, hk, hrel⟩
        refine ⟨k + 1, by omega, ?_⟩
        rw [relaxedEmptyAfter] at hrel ⊢
        simp only [bp_iter, hstep]
        exact hrel
      · rintro ⟨k, hk, hrel⟩
        cases k with
        | zero =>
          rw [relaxedEmptyAfter] at hrel
          simp only [bp_iter] at hrel
          have : relaxedC G pairs st = [] := by
            rcases h : relaxedC G pairs st with _ | ⟨a, r⟩
            · rfl
            · rw [h] at hrel; simp [List.isEmpty] at hrel
          exact absurd ((bp_step_none_iff t2s G pairs rnd st).mpr this)
            (by rw [hstep]; simp)
        | succ k =>
          refine ⟨k, by omega, ?_⟩
          rw [relaxedEmptyAfter] at hrel ⊢
          simp only [bp_iter, hstep] at hrel
          exact hrel

/-- C8: under the static validations, pairing generation relaxes the "not
already played" condition when the strict filter leaves no candidate (the
chosen match always lies in the relaxed candidate set, and in the strict set
whenever that is nonempty); and it fails with the stuck `RuntimeError` if and
only if some iteration, before the required `|teams| * G / 2` matches are
produced, reaches a state whose relaxed candidate set (pairs with both teams
below degree `G`) is empty. -/
theorem c8_relaxation_and_stuck (teams : List Team) (t2s : Team → String)
    (G : Nat) (rnd : Nat → Nat)
    (h2 : 2 ≤ teams.length) (hG : 1 ≤ G) (hev : teams.length * G % 2 = 0)
    (hp : all_allowed_pairs teams t2s ≠ []) :
    (build_pairings teams t2s G rnd = .error .stuck ↔
      ∃ k, k < teams.length * G / 2 ∧
        relaxedEmptyAfter t2s G (all_allowed_pairs teams t2s) rnd bp_init k = true) ∧
    (∀ st st', bp_step t2s G (all_allowed_pairs teams t2s) rnd st = some st' →
      ∃ m, m ∈ relaxedC G (all_allowed_pairs teams t2s) st ∧
        ((strictC G (all_allowed_pairs teams t2s) st).isEmpty = false →
          m ∈ strictC G (all_allowed_pairs teams t2s) st) ∧
        st'.result = st.result ++ [m]) := by
  constructor
  · rw [← bp_loop_stuck_iff t2s G (all_allowed_pairs teams t2s) rnd
      (teams.length * G / 2) bp_init]
    unfold build_pairings
    rw [if_neg (by omega), if_neg (by omega), if_neg (by omega),
      if_neg (by simpa using hp)]
    cases hl : bp_loop t2s G (all_allowed_pairs teams t2s) rnd
        (teams.length * G / 2) bp_init with
    | error e =>
      simp only []
      constructor
      · intro h
        injection h with h2
        rw [h2]
      · intro h
        injection h with h2
        rw [h2]
    | ok st =>
      simp only []
      constructor
      · intro h
        split at h
        · exact absurd h (by simp)
        · injection h with h2
          cases h2
      · intro h
        exact absurd h (by simp)
  · intro st st' hstep
    obtain ⟨m, m1, m2, m3, _⟩ := bp_step_some _ _ _ _ _ _ hstep
    exact ⟨m, m1, m2, m3⟩

/-- Witness for C8: teams `A1`, `B1` of one school and `C1` of another with
`G = 2` get stuck (after `A1`–`C1` and `B1`–`C1` are placed, `C1` is at
degree 2 and no pair of teams below degree `G` remains). -/
theorem c8_relaxation_and_stuck_witness :
    (build_pairings ["A1", "B1", "C1"] t2sXXY 2 rnd0 = .error .stuck ↔
      ∃ k, k < 3 ∧
        relaxedEmptyAfter t2sXXY 2 (all_allowed_pairs ["A1", "B1", "C1"] t2sXXY)
          rnd0 bp_init k = true) ∧
    build_pairings ["A1", "B1", "C1"] t2sXXY 2 rnd0 = .error .stuck :=
  ⟨(c8_relaxation_and_stuck ["A1", "B1", "C1"] t2sXXY 2 rnd0
      (by decide) (by decide) (by decide) (by decide)).1,
   by rfl⟩

theorem pop_match_spec (used : List Team) (l : List Mtch) (m : Mtch) (l' : List Mtch)
    (h : pop_match used l = some (m, l')) :
    l.Perm (m :: l') ∧ m.1 ∉ used ∧ m.2 ∉ used ∧ l.length = l'.length + 1 := by
  induction l generalizing l' with
  | nil => simp [pop_match] at h
  | cons a rest ih =>
    rw [pop_match] at h
    split at h
    next hcond =>
      simp only [Option.some.injEq, Prod.mk.injEq] at h
      obtain ⟨hm, hl⟩ := h
      subst hm
      subst hl
      simp only [Bool.and_eq_true, Bool.not_eq_true'] at hcond
      exact ⟨List.Perm.refl _, by simpa using hcond.1, by simpa using hcond.2, by simp⟩
    next hcond =>
      cases hrec : pop_match used rest with
      | none => rw [hrec] at h; cases h
      | some p =>
        obtain ⟨m0, rest'⟩ := p
        rw [hrec] at h
        simp only [Option.some.injEq, Prod.mk.injEq] at h
        obtain ⟨hm, hl⟩ := h
        subst hm
        subst hl
        obtain ⟨k1, k2, k3, k4⟩ := ih rest' hrec
        refine ⟨?_, k2, k3, by simp [k4]⟩
        exact (k1.cons a).trans (List.Perm.swap _ _ _)

theorem pop_match_head (l : List Mtch) (hne : l ≠ []) :
    ∃ m l', pop_match [] l = some (m, l') := by
  cases l with
  | nil => exact absurd rfl hne
  | cons a rest =>
    refine ⟨a, rest, ?_⟩
    rw [pop_match]
    simp [List.contains]

theorem lm_get_set_same {α : Type} (m : LvlMap α) (l : Lvl) (v : α) :
    (m.set l v).get l = some v := by
  cases l <;> rfl

theorem lm_get_set_other {α : Type} (m : LvlMap α) (l l2 : Lvl) (v : α) (h : l2 ≠ l) :
    (m.set l v).get l2 = m.get l2 := by
  cases l <;> cases l2 <;> first
    | rfl
    | exact absurd rfl h

theorem lvl_other_ne (l : Lvl) : l.other ≠ l := by
  cases l <;> simp [Lvl.other]

theorem lvl_cases (l : Lvl) : l = .S1 ∨ l = .S2 := by
  cases l <;> simp

theorem lvl_str_eq_iff (l l2 : Lvl) : l.str = l2.str ↔ l = l2 := by
  cases l <;> cases l2 <;> simp [Lvl.str]

theorem place_facts (st st' : FillSt) (h : Place st st') :
    ∃ lvl m,
      m ∈ remD st.rem lvl ∧
      m.1 ∉ st.used ∧ m.2 ∉ st.used ∧
      (remD st.rem lvl).Perm (m :: remD st'.rem lvl) ∧
      (∀ l2, l2 ≠ lvl → remD st'.rem l2 = remD st.rem l2) ∧
      (∀ l2, (st'.rem.get l2).isSome = (st.rem.get l2).isSome) ∧
      (remD st'.rem lvl).length + 1 = (remD st.rem lvl).length ∧
      st'.used = st.used ++ [m.1, m.2] ∧
      st'.total = st.total - 1 ∧ st.total ≠ 0 ∧
      ((lvl = .S1 ∧ st'.s1 = st.s1 ++ [("S1", m.1, m.2)] ∧ st'.s2 = st.s2) ∨
       (lvl = .S2 ∧ st'.s1 = st.s1 ∧ st'.s2 = st.s2 ++ [("S2", m.1, m.2)])) := by
  cases h with
  | mk lvl l m l' st ht hg hp =>
    obtain ⟨p1, p2, p3, p4⟩ := pop_match_spec st.used l m l' hp
    have hrd : remD st.rem lvl = l := by simp [remD, LvlMap.getD, hg]
    have hrd' : remD (placeUpd lvl m l' st).rem lvl = l' := by
      simp [remD, LvlMap.getD, placeUpd, lm_get_set_same]
    refine ⟨lvl, m, ?_, p2, p3, ?_, ?_, ?_, ?_, ?_, ?_, ht, ?_⟩
    · rw [hrd]; exact p1.mem_iff.mpr (by simp)
    · rw [hrd, hrd']; exact p1
    · intro l2 hne
      simp [remD, LvlMap.getD, placeUpd, lm_get_set_other st.rem lvl l2 l' hne]
    · intro l2
      by_cases hne : l2 = lvl
      · subst hne
        simp [placeUpd, lm_get_set_same, hg]
      · simp [placeUpd, lm_get_set_other st.rem lvl l2 l' hne]
    · rw [hrd, hrd']; omega
    · rfl
    · rfl
    · cases lvl with
      | S1 => left; exact ⟨rfl, rfl, rfl⟩
      | S2 => right; exact ⟨rfl, rfl, rfl⟩

theorem sessMatches_append (l : Lvl) (a b : List Asg) :
    sessMatches l (a ++ b) = sessMatches l a ++ sessMatches l b := by
  simp [sessMatches, List.filter_append]

theorem sessMatches_perm (l : Lvl) (a b : List Asg) (h : a.Perm b) :
    (sessMatches l a).Perm (sessMatches l b) :=
  (h.filter _).map _

theorem sessMatches_single_same (l : Lvl) (m : Mtch) :
    sessMatches l [(l.str, m.1, m.2)] = [m] := by
  cases l <;> simp [sessMatches, Lvl.str]

theorem sessMatches_single_other (l l2 : Lvl) (m : Mtch) (h : l2 ≠ l) :
    sessMatches l2 [(l.str, m.1, m.2)] = [] := by
  cases l <;> cases l2 <;> first
    | exact absurd rfl h
    | simp [sessMatches, Lvl.str]

theorem teamsOfAsgs_append (a b : List Asg) :
    teamsOfAsgs (a ++ b) = teamsOfAsgs a ++ teamsOfAsgs b := by
  simp [teamsOfAsgs]

theorem teamsOfAsgs_perm (a b : List Asg) (h : a.Perm b) :
    (teamsOfAsgs a).Perm (teamsOfAsgs b) := by
  unfold teamsOfAsgs
  exact h.flatMap_right _

theorem acc_append_perm (st st' : FillSt) (x : Asg)
    (h : (st'.s1 = st.s1 ++ [x] ∧ st'.s2 = st.s2) ∨
         (st'.s1 = st.s1 ∧ st'.s2 = st.s2 ++ [x])) :
    (st'.s1 ++ st'.s2).Perm ((st.s1 ++ st.s2) ++ [x]) := by
  rcases h with ⟨e1, e2⟩ | ⟨e1, e2⟩
  · rw [e1, e2, List.append_assoc, List.append_assoc]
    exact List.Perm.append_left st.s1 List.perm_append_comm
  · rw [e1, e2, List.append_assoc]

theorem star_pres (st st' : FillSt) (h : PlaceStar st st') :
    ∀ l, (st'.rem.get l).isSome = (st.rem.get l).isSome := by
  induction h with
  | refl => intro l; rfl
  | tail hstar hstep ih =>
    intro l
    obtain ⟨lvl, m, _, _, _, _, _, hpres, _, _, _, _, _⟩ := place_facts _ _ hstep
    rw [hpres l, ih l]

theorem star_tags (st st' : FillSt) (h : PlaceStar st st')
    (h1 : ∀ x ∈ st.s1, x.1 = "S1") (h2 : ∀ x ∈ st.s2, x.1 = "S2") :
    (∀ x ∈ st'.s1, x.1 = "S1") ∧ (∀ x ∈ st'.s2, x.1 = "S2") := by
  induction h with
  | refl => exact ⟨h1, h2⟩
  | tail hstar hstep ih =>
    obtain ⟨ih1, ih2⟩ := ih
    obtain ⟨lvl, m, _, _, _, _, _, _, _, _, _, _, htag⟩ := place_facts _ _ hstep
    rcases htag with ⟨_, e1, e2⟩ | ⟨_, e1, e2⟩
    · refine ⟨?_, by rw [e2]; exact ih2⟩
      rw [e1]
      intro x hx
      rcases List.mem_append.mp hx with hx | hx
      · exact ih1 x hx
      · simp only [List.mem_singleton] at hx; subst hx; rfl
    · refine ⟨by rw [e1]; exact ih1, ?_⟩
      rw [e2]
      intro x hx
      rcases List.mem_append.mp hx with hx | hx
      · exact ih2 x hx
      · simp only [List.mem_singleton] at hx; subst hx; rfl

theorem star_perm (st st' : FillSt) (h : PlaceStar st st') :
    ∀ l, (sessMatches l (st.s1 ++ st.s2) ++ remD st.rem l).Perm
         (sessMatches l (st'.s1 ++ st'.s2) ++ remD st'.rem l) := by
  induction h with
  | refl => intro l; exact List.Perm.refl _
  | @tail b c hstar hstep ih =>
    intro l
    obtain ⟨lvl, m, hmem, hn1, hn2, hperm, hoth, hpres, hlen, hused, htot, htne, htag⟩ :=
      place_facts _ _ hstep
    refine (ih l).trans ?_
    have hacc : (c.s1 ++ c.s2).Perm ((b.s1 ++ b.s2) ++ [(lvl.str, m.1, m.2)]) := by
      apply acc_append_perm
      rcases htag with ⟨hl, e1, e2⟩ | ⟨hl, e1, e2⟩
      · subst hl; exact Or.inl ⟨e1, e2⟩
      · subst hl; exact Or.inr ⟨e1, e2⟩
    have hsm : (sessMatches l (c.s1 ++ c.s2)).Perm
        (sessMatches l (b.s1 ++ b.s2) ++ sessMatches l [(lvl.str, m.1, m.2)]) := by
      refine (sessMatches_perm l _ _ hacc).trans ?_
      rw [sessMatches_append]
    by_cases hl : l = lvl
    · subst hl
      rw [sessMatches_single_same] at hsm
      have step1 : (sessMatches l (b.s1 ++ b.s2) ++ remD b.rem l).Perm
          (sessMatches l (b.s1 ++ b.s2) ++ (m :: remD c.rem l)) :=
        List.Perm.append_left _ hperm
      have step2 : sessMatches l (b.s1 ++ b.s2) ++ (m :: remD c.rem l)
          = (sessMatches l (b.s1 ++ b.s2) ++ [m]) ++ remD c.rem l := by
        rw [List.append_assoc]
        rfl
      have step3 : ((sessMatches l (b.s1 ++ b.s2) ++ [m]) ++ remD c.rem l).Perm
          (sessMatches l (c.s1 ++ c.s2) ++ remD c.rem l) :=
        List.Perm.append_right _ hsm.symm
      refine step1.trans ?_
      rw [step2]
      exact step3
    · rw [sessMatches_single_other lvl l m hl, List.append_nil] at hsm
      rw [hoth l hl]
      exact List.Perm.append_right _ hsm.symm

theorem star_used_perm (st st' : FillSt) (h : PlaceStar st st')
    (h0 : st.used.Perm (teamsOfAsgs (st.s1 ++ st.s2))) :
    st'.used.Perm (teamsOfAsgs (st'.s1 ++ st'.s2)) := by
  induction h with
  | refl => exact h0
  | @tail b c hstar hstep ih =>
    obtain ⟨lvl, m, hmem, hn1, hn2, hperm, hoth, hpres, hlen, hused, htot, htne, htag⟩ :=
      place_facts _ _ hstep
    have hacc : (c.s1 ++ c.s2).Perm ((b.s1 ++ b.s2) ++ [(lvl.str, m.1, m.2)]) := by
      apply acc_append_perm
      rcases htag with ⟨hl, e1, e2⟩ | ⟨hl, e1, e2⟩
      · subst hl; exact Or.inl ⟨e1, e2⟩
      · subst hl; exact Or.inr ⟨e1, e2⟩
    rw [hused]
    refine List.Perm.trans ?_ (teamsOfAsgs_perm _ _ hacc.symm)
    rw [teamsOfAsgs_append]
    have : teamsOfAsgs [(lvl.str, m.1, m.2)] = [m.1, m.2] := rfl
    rw [this]
    exact List.Perm.append_right _ ih

theorem star_total (st st' : FillSt) (h : PlaceStar st st') :
    st'.total + (st'.s1.length + st'.s2.length) = st.total + (st.s1.length + st.s2.length) := by
  induction h with
  | refl => rfl
  | @tail b c hstar hstep ih =>
    obtain ⟨lvl, m, hmem, hn1, hn2, hperm, hoth, hpres, hlen, hused, htot, htne, htag⟩ :=
      place_facts _ _ hstep
    rcases htag with ⟨_, e1, e2⟩ | ⟨_, e1, e2⟩ <;>
      · rw [e1, e2] at *
        simp only [List.length_append, List.length_singleton] at *
        omega

theorem star_memsub (st st' : FillSt) (h : PlaceStar st st') :
    ∀ l x, x ∈ remD st'.rem l → x ∈ remD st.rem l := by
  induction h with
  | refl => intro l x hx; exact hx
  | @tail b c hstar hstep ih =>
    intro l x hx
    obtain ⟨lvl, m, hmem, hn1, hn2, hperm, hoth, hpres, hlen, hused, htot, htne, htag⟩ :=
      place_facts _ _ hstep
    by_cases hl : l = lvl
    · subst hl
      exact ih l x (hperm.mem_iff.mpr (List.mem_cons_of_mem m hx))
    · exact ih l x (by rwa [hoth l hl] at hx)

theorem star_nodup (st st' : FillSt) (h : PlaceStar st st')
    (hd : ∀ l x, x ∈ remD st.rem l → x.1 ≠ x.2) (h0 : st.used.Nodup) :
    st'.used.Nodup := by
  induction h with
  | refl => exact h0
  | @tail b c hstar hstep ih =>
    obtain ⟨lvl, m, hmem, hn1, hn2, hperm, hoth, hpres, hlen, hused, htot, htne, htag⟩ :=
      place_facts _ _ hstep
    have hne : m.1 ≠ m.2 := hd lvl m (star_memsub st b hstar lvl m hmem)
    rw [hused]
    rw [List.nodup_append]
    refine ⟨ih, by simp [hne], ?_⟩
    intro a ha
    simp only [List.mem_cons, List.mem_singleton, List.not_mem_nil, or_false]
    intro hc
    rcases hc with hc | hc
    · subst hc; exact hn1 ha
    · subst hc; exact hn2 ha

theorem spreadAux_ok_facts (fuel free : Nat) (l l' : List Nat) (R : Nat)
    (h : spreadAux fuel free l = some l') :
    l'.sum + free = l.sum ∧ l'.length = l.length ∧
    ((∀ x ∈ l, x ≤ R) → ∀ x ∈ l', x ≤ R) ∧
    (l.Sorted (· ≤ ·) → l'.Sorted (· ≤ ·)) := by
  induction fuel generalizing free l with
  | zero =>
    cases free with
    | zero =>
      simp only [spreadAux, Option.some.injEq] at h
      subst h
      exact ⟨by omega, rfl, fun a => a, fun a => a⟩
    | succ f => simp [spreadAux] at h
  | succ fuel ih =>
    cases free with
    | zero =>
      simp only [spreadAux, Option.some.injEq] at h
      subst h
      exact ⟨by omega, rfl, fun a => a, fun a => a⟩
    | succ f =>
      have hstep : spreadAux (fuel + 1) (f + 1) l =
          spreadAux fuel (sweep (f + 1) l).1 (sweep (f + 1) l).2 := rfl
      rw [hstep] at h
      obtain ⟨s1, s2, s3, s4⟩ := ih (sweep (f + 1) l).1 (sweep (f + 1) l).2 h
      have hs := sweep_sum (f + 1) l
      have hl := sweep_length (f + 1) l
      refine ⟨by omega, by omega, ?_, ?_⟩
      · intro hb; exact s3 (sweep_bound (f + 1) R l hb)
      · intro hso; exact s4 (sweep_sorted (f + 1) l hso)

theorem spreadFree_ok_facts (free S R : Nat) (caps : List Nat)
    (h : spreadFree free (List.replicate S R) = .ok caps) :
    caps.sum + free = S * R ∧ caps.length = S ∧ (∀ c ∈ caps, c ≤ R) ∧
    caps.Pairwise (fun a b => b ≤ a) := by
  unfold spreadFree at h
  cases hsp : spreadAux free free (List.replicate S R).reverse with
  | none => rw [hsp] at h; simp at h
  | some l' =>
    rw [hsp] at h
    simp only [Except.ok.injEq] at h
    subst h
    rw [List.reverse_replicate] at hsp
    obtain ⟨s1, s2, s3, s4⟩ := spreadAux_ok_facts free free _ l' R hsp
    have hsum : (List.replicate S R).sum = S * R := by
      simp [List.sum_replicate, smul_eq_mul]
    have hlen : (List.replicate S R).length = S := by simp
    refine ⟨by simp only [List.sum_reverse]; omega, by simp [s2, hlen], ?_, ?_⟩
    · intro c hc
      exact s3 (fun x hx => le_of_eq (List.eq_of_mem_replicate hx)) c
        (List.mem_reverse.mp hc)
    · have hso := s4 (List.pairwise_replicate.mpr (Or.inr le_rfl))
      exact List.pairwise_reverse.mpr hso

theorem caps_ok_facts (rooms t m : Nat) (caps : List Nat)
    (h : capacities_with_free_spread_at_end rooms t m = .ok caps) :
    caps.sum = t ∧ (∀ c ∈ caps, c ≤ rooms) ∧ caps.Pairwise (fun a b => b ≤ a) ∧
    2 ≤ caps.length := by
  unfold capacities_with_free_spread_at_end at h
  split at h
  next hlt =>
    split at h
    next hz => simp at h
    next hz =>
      have hr : 1 ≤ rooms := by omega
      have hge := cdiv_mul_ge t rooms hr
      obtain ⟨s1, s2, s3, s4⟩ := spreadFree_ok_facts _ _ _ _ h
      have h2m : 2 ≤ max 2 m := le_max_left 2 m
      have hmul : 2 * rooms ≤ max 2 m * rooms := Nat.mul_le_mul_right rooms h2m
      have hlt2 : 2 * rooms < cdiv t rooms * rooms := by omega
      have h2q : 2 < cdiv t rooms := lt_of_mul_lt_mul_right hlt2 (Nat.zero_le rooms)
      exact ⟨by omega, s3, s4, by omega⟩
  next hlt =>
    obtain ⟨s1, s2, s3, s4⟩ := spreadFree_ok_facts _ _ _ _ h
    have h2m : 2 ≤ max 2 m := le_max_left 2 m
    exact ⟨by omega, s3, s4, by omega⟩

theorem caps_head_pos (caps : List Nat) (hsum : caps.sum ≠ 0)
    (hmono : caps.Pairwise (fun a b => b ≤ a)) :
    ∃ c0 cr, caps = c0 :: cr ∧ 1 ≤ c0 := by
  cases caps with
  | nil => simp at hsum
  | cons c0 cr =>
    refine ⟨c0, cr, rfl, ?_⟩
    by_contra hc
    have hc0 : c0 = 0 := by omega
    subst hc0
    rw [List.pairwise_cons] at hmono
    have hz : cr.sum = 0 := by
      apply List.sum_eq_zero
      intro x hx
      have := hmono.1 x hx
      omega
    simp [List.sum_cons, hz] at hsum

theorem fallbackChoice_cases (l1 l2 : List Mtch) :
    (fallbackChoice l1 l2 = none ↔ l1 = [] ∧ l2 = []) ∧
    (fallbackChoice l1 l2 = some .S1 → l1 ≠ []) ∧
    (fallbackChoice l1 l2 = some .S2 → l2 ≠ []) := by
  unfold fallbackChoice
  by_cases hle : l2.length ≤ l1.length <;>
    by_cases he1 : l1.isEmpty <;>
      by_cases he2 : l2.isEmpty <;>
        simp_all [List.isEmpty_iff, Lvl.other]

theorem place_from_level_some (lvl : Lvl) (st st1 : FillSt) (ht : st.total ≠ 0)
    (h : place_from_level lvl st = .ok (some st1)) : Place st st1 := by
  unfold place_from_level at h
  split at h
  next hg => simp at h
  next l hg =>
    split at h
    next hp => simp at h
    next m l' hp =>
      simp only [Except.ok.injEq, Option.some.injEq] at h
      rw [← h]
      exact Place.mk lvl l m l' st ht hg hp

theorem place_count (st st1 : FillSt) (h : Place st st1) :
    st1.s1.length + st1.s2.length = st.s1.length + st.s2.length + 1 := by
  obtain ⟨lvl, m, _, _, _, _, _, _, _, _, _, _, htag⟩ := place_facts _ _ h
  rcases htag with ⟨_, e1, e2⟩ | ⟨_, e1, e2⟩ <;>
    · rw [e1, e2]
      simp only [List.length_append, List.length_singleton]
      omega

theorem fill_loop_spec (mix : Bool) (target : LvlMap Nat) (fuel : Nat) (st st' : FillSt)
    (h : fill_loop mix target fuel st = .ok st') :
    PlaceStar st st' ∧
      st'.s1.length + st'.s2.length ≤ st.s1.length + st.s2.length + fuel := by
  induction fuel generalizing st with
  | zero =>
    simp only [fill_loop, Except.ok.injEq] at h
    subst h
    exact ⟨Relation.ReflTransGen.refl, by omega⟩
  | succ fuel ih =>
    rw [fill_loop] at h
    split at h
    · simp only [Except.ok.injEq] at h
      subst h
      exact ⟨Relation.ReflTransGen.refl, by omega⟩
    next htne =>
      have key : ∀ (L : Lvl) (st1 : FillSt), place_from_level L st = .ok (some st1) →
          fill_loop mix target fuel st1 = .ok st' →
          PlaceStar st st' ∧
            st'.s1.length + st'.s2.length ≤ st.s1.length + st.s2.length + (fuel + 1) := by
        intro L st1 heq hrec
        have hp := place_from_level_some L st st1 htne heq
        have hc := place_count st st1 hp
        obtain ⟨ihs, ihc⟩ := ih st1 hrec
        exact ⟨Relation.ReflTransGen.head hp ihs, by omega⟩
      split at h
      next lvl hpref =>
        split at h
        next e heq => simp at h
        next st1 heq => exact key lvl st1 heq h
        next heq =>
          split at h
          next e heq2 => simp at h
          next st1 heq2 => exact key lvl.other st1 heq2 h
          next heq2 =>
            simp only [Except.ok.injEq] at h
            subst h
            exact ⟨Relation.ReflTransGen.refl, by omega⟩
      next hpref =>
        split at h
        next l1 l2 hg1 hg2 =>
          split at h
          next hfb =>
            simp only [Except.ok.injEq] at h
            subst h
            exact ⟨Relation.ReflTransGen.refl, by omega⟩
          next chosen hfb =>
            split at h
            next e heq => simp at h
            next st1 heq => exact key chosen st1 heq h
            next heq =>
              split at h
              next e heq2 => simp at h
              next st1 heq2 => exact key chosen.other st1 heq2 h
              next heq2 =>
                simp only [Except.ok.injEq] at h
                subst h
                exact ⟨Relation.ReflTransGen.refl, by omega⟩
        next hne => simp at h

theorem drain_fill_spec (fuel : Nat) (st st' : FillSt)
    (h : drain_fill fuel st = .ok st') :
    PlaceStar st st' ∧
      st'.s1.length + st'.s2.length ≤ st.s1.length + st.s2.length + fuel := by
  induction fuel generalizing st with
  | zero =>
    simp only [drain_fill, Except.ok.injEq] at h
    subst h
    exact ⟨Relation.ReflTransGen.refl, by omega⟩
  | succ fuel ih =>
    rw [drain_fill] at h
    split at h
    · simp only [Except.ok.injEq] at h
      subst h
      exact ⟨Relation.ReflTransGen.refl, by omega⟩
    next htne =>
      split at h
      next l1 l2 hg1 hg2 =>
        have key : ∀ (L : Lvl) (m : Mtch) (l' : List Mtch),
            pop_match st.used ((st.rem.get L).getD []) = some (m, l') →
            drain_fill fuel (placeUpd L m l' st) = .ok st' →
            PlaceStar st st' ∧
              st'.s1.length + st'.s2.length ≤ st.s1.length + st.s2.length + (fuel + 1) := by
          intro L m l' hp hrec
          have hgc : st.rem.get L = some ((st.rem.get L).getD []) := by
            cases L <;> simp [LvlMap.get] at hg1 hg2 ⊢ <;> simp [hg1, hg2]
          have hpl : Place st (placeUpd L m l' st) :=
            Place.mk L ((st.rem.get L).getD []) m l' st htne hgc hp
          have hc := place_count st (placeUpd L m l' st) hpl
          obtain ⟨ihs, ihc⟩ := ih (placeUpd L m l' st) hrec
          exact ⟨Relation.ReflTransGen.head hpl ihs, by omega⟩
        split at h
        next hfb =>
          simp only [Except.ok.injEq] at h
          subst h
          exact ⟨Relation.ReflTransGen.refl, by omega⟩
        next chosen hfb =>
          split at h
          next m l' hp => exact key chosen m l' hp h
          next hp =>
            split at h
            next hp2 =>
              simp only [Except.ok.injEq] at h
              subst h
              exact ⟨Relation.ReflTransGen.refl, by omega⟩
            next m2 l2' hp2 => exact key chosen.other m2 l2' hp2 h
      next hne => simp at h

theorem place_from_level_ok (lvl : Lvl) (st : FillSt) (hp : (st.rem.get lvl).isSome) :
    ∃ r, place_from_level lvl st = .ok r := by
  cases he : place_from_level lvl st with
  | ok r => exact ⟨r, rfl⟩
  | error e =>
    unfold place_from_level at he
    split at he
    next hg => rw [hg] at hp; simp at hp
    next l hg => split at he <;> simp at he

theorem place_some_pres (st st1 : FillSt) (hpl : Place st st1)
    (h1 : (st.rem.get .S1).isSome) (h2 : (st.rem.get .S2).isSome) :
    (st1.rem.get .S1).isSome ∧ (st1.rem.get .S2).isSome := by
  obtain ⟨lvl, m, _, _, _, _, _, hpres, _, _, _, _, _⟩ := place_facts _ _ hpl
  constructor
  · rw [hpres .S1]; exact h1
  · rw [hpres .S2]; exact h2

theorem fill_loop_ok (mix : Bool) (target : LvlMap Nat) (fuel : Nat) (st : FillSt)
    (h1 : (st.rem.get .S1).isSome) (h2 : (st.rem.get .S2).isSome) :
    ∃ st', fill_loop mix target fuel st = .ok st' := by
  induction fuel generalizing st with
  | zero => exact ⟨st, rfl⟩
  | succ fuel ih =>
    rw [fill_loop]
    split
    · exact ⟨st, rfl⟩
    next htne =>
      have key : ∀ (L : Lvl), (st.rem.get L).isSome →
          ∃ st'', (match place_from_level L st with
            | .error e => (.error e : Except SchedErr FillSt)
            | .ok (some st') => fill_loop mix target fuel st'
            | .ok none =>
              match place_from_level L.other st with
              | .error e => .error e
              | .ok (some st') => fill_loop mix target fuel st'
              | .ok none => .ok st) = .ok st'' := by
        intro L hLp
        obtain ⟨r, hr⟩ := place_from_level_ok L st hLp
        rw [hr]
        cases r with
        | some st1 =>
          obtain ⟨q1, q2⟩ := place_some_pres st st1
            (place_from_level_some L st st1 htne hr) h1 h2
          exact ih st1 q1 q2
        | none =>
          have hLo : (st.rem.get L.other).isSome := by
            cases L
            · exact h2
            · exact h1
          obtain ⟨r2, hr2⟩ := place_from_level_ok L.other st hLo
          rw [hr2]
          cases r2 with
          | some st1 =>
            obtain ⟨q1, q2⟩ := place_some_pres st st1
              (place_from_level_some L.other st st1 htne hr2) h1 h2
            exact ih st1 q1 q2
          | none => exact ⟨st, rfl⟩
      split
      next lvl hpref =>
        have hLp : (st.rem.get lvl).isSome := by
          cases lvl
          · exact h1
          · exact h2
        exact key lvl hLp
      next hpref =>
        cases hg1 : st.rem.get .S1 with
        | none => rw [hg1] at h1; simp at h1
        | some l1 =>
          cases hg2 : st.rem.get .S2 with
          | none => rw [hg2] at h2; simp at h2
          | some l2 =>
            simp only []
            cases hfb : fallbackChoice l1 l2 with
            | none => exact ⟨st, rfl⟩
            | some chosen =>
              have hcp : (st.rem.get chosen).isSome := by
                cases chosen
                · rw [hg1]; rfl
                · rw [hg2]; rfl
              exact key chosen hcp

theorem drain_fill_ok (fuel : Nat) (st : FillSt)
    (h1 : (st.rem.get .S1).isSome) (h2 : (st.rem.get .S2).isSome) :
    ∃ st', drain_fill fuel st = .ok st' := by
  induction fuel generalizing st with
  | zero => exact ⟨st, rfl⟩
  | succ fuel ih =>
    rw [drain_fill]
    split
    · exact ⟨st, rfl⟩
    next htne =>
      cases hg1 : st.rem.get .S1 with
      | none => rw [hg1] at h1; simp at h1
      | some l1 =>
        cases hg2 : st.rem.get .S2 with
        | none => rw [hg2] at h2; simp at h2
        | some l2 =>
          simp only []
          cases hfb : fallbackChoice l1 l2 with
          | none => exact ⟨st, rfl⟩
          | some chosen =>
            show ∃ st',
              (match pop_match st.used ((st.rem.get chosen).getD []) with
                | some (m, l') => drain_fill fuel (placeUpd chosen m l' st)
                | none =>
                  match pop_match st.used ((st.rem.get chosen.other).getD []) with
                  | none => .ok st
                  | some (m2, l2') => drain_fill fuel (placeUpd chosen.other m2 l2' st)) =
                .ok st'
            have hplace : ∀ (L : Lvl) (m : Mtch) (l' : List Mtch),
                ∃ st'', drain_fill fuel (placeUpd L m l' st) = .ok st'' := by
              intro L m l'
              have hgc : (st.rem.get L).isSome := by
                cases L
                · rw [hg1]; rfl
                · rw [hg2]; rfl
              have hq1 : ((placeUpd L m l' st).rem.get .S1).isSome := by
                cases L <;>
                  simp only [placeUpd, LvlMap.set, LvlMap.get] <;>
                  first | rfl | exact h1
              have hq2 : ((placeUpd L m l' st).rem.get .S2).isSome := by
                cases L <;>
                  simp only [placeUpd, LvlMap.set, LvlMap.get] <;>
                  first | rfl | exact h2
              exact ih (placeUpd L m l' st) hq1 hq2
            cases hp : pop_match st.used ((st.rem.get chosen).getD []) with
            | some p => exact hplace chosen p.1 p.2
            | none =>
              cases hp2 : pop_match st.used ((st.rem.get chosen.other).getD []) with
              | none => exact ⟨st, rfl⟩
              | some p2 => exact hplace chosen.other p2.1 p2.2

theorem star_sum (st st' : FillSt) (h : PlaceStar st st')
    (h0 : st.total = sumRemM st.rem) : st'.total = sumRemM st'.rem := by
  induction h with
  | refl => exact h0
  | @tail b c hstar hstep ih =>
    obtain ⟨lvl, m, hmem, hn1, hn2, hperm, hoth, hpres, hlen, hused, htot, htne, htag⟩ :=
      place_facts _ _ hstep
    have hob : remD c.rem lvl.other = remD b.rem lvl.other := hoth lvl.other (lvl_other_ne lvl)
    have h2 : (remD c.rem lvl.other).length = (remD b.rem lvl.other).length := by rw [hob]
    rw [htot, ih]
    cases lvl with
    | S1 =>
      simp only [Lvl.other] at h2
      simp only [sumRemM]
      omega
    | S2 =>
      simp only [Lvl.other] at h2
      simp only [sumRemM]
      omega

theorem star_session_facts (rem : LvlMap (List Mtch)) (total : Nat) (st' : FillSt)
    (hstar : PlaceStar ⟨rem, total, [], [], []⟩ st') :
    (∀ l, (st'.rem.get l).isSome = (rem.get l).isSome) ∧
    (∀ l, (remD rem l).Perm (sessMatches l (st'.s1 ++ st'.s2) ++ remD st'.rem l)) ∧
    (∀ x ∈ st'.s1, x.1 = "S1") ∧ (∀ x ∈ st'.s2, x.1 = "S2") ∧
    st'.total + (st'.s1 ++ st'.s2).length = total ∧
    (∀ l x, x ∈ remD st'.rem l → x ∈ remD rem l) ∧
    ((∀ l x, x ∈ remD rem l → x.1 ≠ x.2) → (teamsOfAsgs (st'.s1 ++ st'.s2)).Nodup) ∧
    (total = sumRemM rem → st'.total = sumRemM st'.rem) := by
  refine ⟨star_pres _ _ hstar, ?_, ?_, ?_, ?_, star_memsub _ _ hstar, ?_, ?_⟩
  · intro l
    exact star_perm _ _ hstar l
  · exact (star_tags _ _ hstar (by intro x hx; simp at hx) (by intro x hx; simp at hx)).1
  · exact (star_tags _ _ hstar (by intro x hx; simp at hx) (by intro x hx; simp at hx)).2
  · have := star_total _ _ hstar
    simp only [List.length_append, List.length_nil] at this ⊢
    omega
  · intro hd
    have hnd := star_nodup _ _ hstar hd (by simp)
    have hup := star_used_perm _ _ hstar (List.Perm.refl [])
    exact hup.nodup hnd
  · intro hsum
    exact star_sum _ _ hstar hsum

theorem run_sessions_facts (mix : Bool) (caps : List Nat) (rem : LvlMap (List Mtch))
    (total : Nat) (ss : List (List Asg)) (rem' : LvlMap (List Mtch)) (total' : Nat)
    (h : run_sessions mix caps rem total = .ok (ss, rem', total')) :
    (∀ l, (rem'.get l).isSome = (rem.get l).isSome) ∧
    (∀ l, (remD rem l).Perm (sessMatches l ss.flatten ++ remD rem' l)) ∧
    (∀ l x, x ∈ remD rem' l → x ∈ remD rem l) ∧
    (total' + (ss.map List.length).sum = total) ∧
    (total = sumRemM rem → total' = sumRemM rem') ∧
    (∀ sess ∈ ss, ∃ c ∈ caps, sess.length ≤ c) ∧
    ((∀ l x, x ∈ remD rem l → x.1 ≠ x.2) → ∀ sess ∈ ss, (teamsOfAsgs sess).Nodup) ∧
    (∀ sess ∈ ss, ∃ u v, sess = u ++ v ∧ (∀ x ∈ u, x.1 = "S1") ∧ (∀ x ∈ v, x.1 = "S2")) ∧
    ss.length = caps.length := by
  induction caps generalizing rem total ss with
  | nil =>
    simp only [run_sessions, Except.ok.injEq, Prod.mk.injEq] at h
    obtain ⟨h1, h2, h3⟩ := h
    subst h1; subst h2; subst h3
    refine ⟨fun l => rfl, fun l => by simp [sessMatches], fun l x hx => hx, by simp,
      fun hs => hs, by simp, fun _ sess hs => absurd hs (by simp), by simp, rfl⟩
  | cons cap rest ih =>
    rw [run_sessions] at h
    split at h
    next htz =>
      split at h
      next e heq => simp at h
      next ss0 rem0 tot0 heq =>
        simp only [Except.ok.injEq, Prod.mk.injEq] at h
        obtain ⟨h1, h2, h3⟩ := h
        subst h1; subst h2; subst h3
        obtain ⟨k1, k2, k3, k4, k5, k6, k7, k8, k9⟩ := ih rem total ss0 heq
        refine ⟨k1, ?_, k3, ?_, k5, ?_, ?_, ?_, by simp [k9]⟩
        · intro l
          simpa using k2 l
        · simpa using k4
        · intro sess hs
          rcases List.mem_cons.mp hs with hs | hs
          · subst hs; exact ⟨cap, by simp, by simp⟩
          · obtain ⟨c, hc1, hc2⟩ := k6 sess hs
            exact ⟨c, by simp [hc1], hc2⟩
        · intro hd sess hs
          rcases List.mem_cons.mp hs with hs | hs
          · subst hs; simp [teamsOfAsgs]
          · exact k7 hd sess hs
        · intro sess hs
          rcases List.mem_cons.mp hs with hs | hs
          · subst hs
            exact ⟨[], [], rfl, by simp, by simp⟩
          · exact k8 sess hs
    next htz =>
      split at h
      next e heq => simp at h
      next st' heq =>
        split at h
        next e heq2 => simp at h
        next ss0 rem0 tot0 heq2 =>
          simp only [Except.ok.injEq, Prod.mk.injEq] at h
          obtain ⟨h1, h2, h3⟩ := h
          subst h1; subst h2; subst h3
          obtain ⟨hstar, hcount⟩ := fill_loop_spec _ _ _ _ _ heq
          obtain ⟨f1, f2, f3, f4, f5, f6, f7, f8⟩ := star_session_facts rem total st' hstar
          obtain ⟨k1, k2, k3, k4, k5, k6, k7, k8, k9⟩ := ih st'.rem st'.total ss0 heq2
          refine ⟨?_, ?_, ?_, ?_, ?_, ?_, ?_, ?_, by simp [k9]⟩
          · intro l; rw [k1 l, f1 l]
          · intro l
            refine (f2 l).trans ?_
            refine (List.Perm.append_left _ (k2 l)).trans ?_
            rw [List.flatten_cons]
            simp only [sessMatches_append, List.append_assoc]
            exact List.Perm.refl _
          · intro l x hx
            exact f6 l x (k3 l x hx)
          · simp only [List.map_cons, List.sum_cons]
            omega
          · intro hsum
            exact k5 (f8 hsum)
          · intro sess hs
            rcases List.mem_cons.mp hs with hs | hs
            · subst hs
              refine ⟨cap, by simp, ?_⟩
              have hc2 : st'.s1.length + st'.s2.length ≤ cap := by simpa using hcount
              simp only [List.length_append]
              omega
            · obtain ⟨c, hc1, hc2⟩ := k6 sess hs
              exact ⟨c, by simp [hc1], hc2⟩
          · intro hd sess hs
            rcases List.mem_cons.mp hs with hs | hs
            · subst hs; exact f7 hd
            · refine k7 ?_ sess hs
              intro l x hx
              exact hd l x (f6 l x hx)
          · intro sess hs
            rcases List.mem_cons.mp hs with hs | hs
            · subst hs
              exact ⟨st'.s1, st'.s2, rfl, f3, f4⟩
            · exact k8 sess hs

theorem drain_caps_facts (caps : List Nat) (rem : LvlMap (List Mtch))
    (total : Nat) (ss : List (List Asg)) (rem' : LvlMap (List Mtch)) (total' : Nat)
    (h : drain_caps caps rem total = .ok (ss, rem', total')) :
    (∀ l, (rem'.get l).isSome = (rem.get l).isSome) ∧
    (∀ l, (remD rem l).Perm (sessMatches l ss.flatten ++ remD rem' l)) ∧
    (∀ l x, x ∈ remD rem' l → x ∈ remD rem l) ∧
    (total' + (ss.map List.length).sum = total) ∧
    (total = sumRemM rem → total' = sumRemM rem') ∧
    (∀ sess ∈ ss, ∃ c ∈ caps, sess.length ≤ c) ∧
    ((∀ l x, x ∈ remD rem l → x.1 ≠ x.2) → ∀ sess ∈ ss, (teamsOfAsgs sess).Nodup) ∧
    (∀ sess ∈ ss, ∃ u v, sess = u ++ v ∧ (∀ x ∈ u, x.1 = "S1") ∧ (∀ x ∈ v, x.1 = "S2")) := by
  induction caps generalizing rem total ss with
  | nil =>
    simp only [drain_caps, Except.ok.injEq, Prod.mk.injEq] at h
    obtain ⟨h1, h2, h3⟩ := h
    subst h1; subst h2; subst h3
    exact ⟨fun l => rfl, fun l => by simp [sessMatches], fun l x hx => hx, by simp,
      fun hs => hs, by simp, fun _ sess hs => absurd hs (by simp), by simp⟩
  | cons cap rest ih =>
    rw [drain_caps] at h
    split at h
    next e heq => simp at h
    next st' heq =>
      split at h
      next e heq2 => simp at h
      next ss0 rem0 tot0 heq2 =>
        simp only [Except.ok.injEq, Prod.mk.injEq] at h
        obtain ⟨h1, h2, h3⟩ := h
        subst h1; subst h2; subst h3
        obtain ⟨hstar, hcount⟩ := drain_fill_spec _ _ _ heq
        obtain ⟨f1, f2, f3, f4, f5, f6, f7, f8⟩ := star_session_facts rem total st' hstar
        obtain ⟨k1, k2, k3, k4, k5, k6, k7, k8⟩ := ih st'.rem st'.total ss0 heq2
        refine ⟨?_, ?_, ?_, ?_, ?_, ?_, ?_, ?_⟩
        · intro l; rw [k1 l, f1 l]
        · intro l
          refine (f2 l).trans ?_
          refine (List.Perm.append_left _ (k2 l)).trans ?_
          rw [List.flatten_cons]
          simp only [sessMatches_append, List.append_assoc]
          exact List.Perm.refl _
        · intro l x hx
          exact f6 l x (k3 l x hx)
        · simp only [List.map_cons, List.sum_cons]
          omega
        · intro hsum
          exact k5 (f8 hsum)
        · intro sess hs
          rcases List.mem_cons.mp hs with hs | hs
          · subst hs
            refine ⟨cap, by simp, ?_⟩
            have hc2 : st'.s1.length + st'.s2.length ≤ cap := by simpa using hcount
            simp only [List.length_append]
            omega
          · obtain ⟨c, hc1, hc2⟩ := k6 sess hs
            exact ⟨c, by simp [hc1], hc2⟩
        · intro hd sess hs
          rcases List.mem_cons.mp hs with hs | hs
          · subst hs; exact f7 hd
          · refine k7 ?_ sess hs
            intro l x hx
            exact hd l x (f6 l x hx)
        · intro sess hs
          rcases List.mem_cons.mp hs with hs | hs
          · subst hs
            exact ⟨st'.s1, st'.s2, rfl, f3, f4⟩
          · exact k8 sess hs

theorem star_total_le (st st' : FillSt) (h : PlaceStar st st') : st'.total ≤ st.total := by
  induction h with
  | refl => exact le_rfl
  | tail hstar hstep ih =>
    obtain ⟨lvl, m, _, _, _, _, _, _, _, _, htot, _, _⟩ := place_facts _ _ hstep
    omega

theorem drain_caps_ok (caps : List Nat) (rem : LvlMap (List Mtch)) (total : Nat)
    (h1 : (rem.get .S1).isSome) (h2 : (rem.get .S2).isSome) :
    ∃ ss rem' total', drain_caps caps rem total = .ok (ss, rem', total') ∧
      (rem'.get .S1).isSome ∧ (rem'.get .S2).isSome := by
  induction caps generalizing rem total with
  | nil => exact ⟨[], rem, total, rfl, h1, h2⟩
  | cons cap rest ih =>
    obtain ⟨st', hst⟩ := drain_fill_ok cap ⟨rem, total, [], [], []⟩ h1 h2
    obtain ⟨hstar, _⟩ := drain_fill_spec _ _ _ hst
    have hp := star_pres _ _ hstar
    have hp1 : (st'.rem.get .S1).isSome := by rw [hp .S1]; exact h1
    have hp2 : (st'.rem.get .S2).isSome := by rw [hp .S2]; exact h2
    obtain ⟨ss0, rem0, tot0, hrec, ho1, ho2⟩ := ih st'.rem st'.total hp1 hp2
    refine ⟨(st'.s1 ++ st'.s2) :: ss0, rem0, tot0, ?_, ho1, ho2⟩
    rw [drain_caps, hst]
    show (match drain_caps rest st'.rem st'.total with
      | Except.error e => Except.error e
      | Except.ok (ss, rem', total') =>
        Except.ok ((st'.s1 ++ st'.s2) :: ss, rem', total')) = Except.ok _
    rw [hrec]

theorem drain_fill_progress (fuel : Nat) (rem : LvlMap (List Mtch)) (total : Nat)
    (st' : FillSt)
    (h : drain_fill (fuel + 1) ⟨rem, total, [], [], []⟩ = .ok st')
    (ht : total ≠ 0) (hsum : total = sumRemM rem)
    (h1 : (rem.get .S1).isSome) (h2 : (rem.get .S2).isSome) :
    st'.total < total := by
  rw [drain_fill] at h
  split at h
  next htz => exact absurd htz ht
  next htz =>
    split at h
    next l1 l2 hg1 hg2 =>
      split at h
      next hfb =>
        obtain ⟨hiff, _, _⟩ := fallbackChoice_cases l1 l2
        obtain ⟨e1, e2⟩ := hiff.mp hfb
        exfalso
        apply ht
        rw [hsum]
        simp [sumRemM, remD, LvlMap.getD, hg1, hg2, e1, e2]
      next chosen hfb =>
        split at h
        next m l' hp =>
          obtain ⟨hstar2, _⟩ := drain_fill_spec _ _ _ h
          have hle := star_total_le _ _ hstar2
          have hplt : (placeUpd chosen m l' ⟨rem, total, [], [], []⟩).total = total - 1 := rfl
          omega
        next hp =>
          obtain ⟨_, hs1, hs2⟩ := fallbackChoice_cases l1 l2
          have hg1' : LvlMap.get rem Lvl.S1 = some l1 := hg1
          have hg2' : LvlMap.get rem Lvl.S2 = some l2 := hg2
          have hch : (rem.get chosen).getD [] ≠ [] := by
            cases chosen
            · rw [hg1']; simpa using hs1 hfb
            · rw [hg2']; simpa using hs2 hfb
          obtain ⟨m, l', hpop⟩ := pop_match_head _ hch
          have hp' : pop_match [] ((rem.get chosen).getD []) = none := hp
          rw [hpop] at hp'
          cases hp'
    next hne =>
      simp at h

theorem drain_loop_spec (mix : Bool) (rooms fuel : Nat) (rem : LvlMap (List Mtch))
    (total : Nat) (ds : List (List Asg))
    (h : drain_loop mix rooms fuel rem total = .ok ds)
    (hsum : total = sumRemM rem) :
    (∀ l, (remD rem l).Perm (sessMatches l ds.flatten)) ∧
    (∀ sess ∈ ds, sess.length ≤ rooms) ∧
    ((∀ l x, x ∈ remD rem l → x.1 ≠ x.2) → ∀ sess ∈ ds, (teamsOfAsgs sess).Nodup) ∧
    (∀ sess ∈ ds, ∃ u v, sess = u ++ v ∧ (∀ x ∈ u, x.1 = "S1") ∧ (∀ x ∈ v, x.1 = "S2")) ∧
    (ds.map List.length).sum = total := by
  induction fuel generalizing rem total ds with
  | zero =>
    rw [drain_loop] at h
    split at h
    next htz =>
      simp only [Except.ok.injEq] at h
      subst h
      subst htz
      have hz1 : remD rem .S1 = [] := by
        have := hsum.symm
        simp only [sumRemM] at this
        exact List.eq_nil_of_length_eq_zero (by omega)
      have hz2 : remD rem .S2 = [] := by
        have := hsum.symm
        simp only [sumRemM] at this
        exact List.eq_nil_of_length_eq_zero (by omega)
      refine ⟨?_, by simp, by simp, by simp, by simp⟩
      intro l
      cases l
      · rw [hz1]; simp [sessMatches]
      · rw [hz2]; simp [sessMatches]
    next htz => simp at h
  | succ fuel ih =>
    rw [drain_loop] at h
    split at h
    next htz =>
      simp only [Except.ok.injEq] at h
      subst h
      subst htz
      have hz1 : remD rem .S1 = [] := by
        have := hsum.symm
        simp only [sumRemM] at this
        exact List.eq_nil_of_length_eq_zero (by omega)
      have hz2 : remD rem .S2 = [] := by
        have := hsum.symm
        simp only [sumRemM] at this
        exact List.eq_nil_of_length_eq_zero (by omega)
      refine ⟨?_, by simp, by simp, by simp, by simp⟩
      intro l
      cases l
      · rw [hz1]; simp [sessMatches]
      · rw [hz2]; simp [sessMatches]
    next htz =>
      split at h
      next e hcaps => simp at h
      next caps hcaps =>
        split at h
        next e heq => simp at h
        next ss0 rem0 tot0 heq =>
          split at h
          next e heq2 => simp at h
          next ds0 heq2 =>
            simp only [Except.ok.injEq] at h
            subst h
            obtain ⟨csum, cbound, cmono, clen⟩ := caps_ok_facts _ _ _ _ hcaps
            obtain ⟨k1, k2, k3, k4, k5, k6, k7, k8⟩ := drain_caps_facts _ _ _ _ _ _ heq
            obtain ⟨j1, j2, j3, j4, j5⟩ := ih rem0 tot0 ds0 heq2 (k5 hsum)
            refine ⟨?_, ?_, ?_, ?_, ?_⟩
            · intro l
              refine (k2 l).trans ?_
              refine (List.Perm.append_left _ (j1 l)).trans ?_
              rw [List.flatten_append, sessMatches_append]
            · intro sess hs
              rcases List.mem_append.mp hs with hs | hs
              · obtain ⟨c, hc1, hc2⟩ := k6 sess hs
                exact le_trans hc2 (cbound c hc1)
              · exact j2 sess hs
            · intro hd sess hs
              rcases List.mem_append.mp hs with hs | hs
              · exact k7 hd sess hs
              · refine j3 ?_ sess hs
                intro l x hx
                exact hd l x (k3 l x hx)
            · intro sess hs
              rcases List.mem_append.mp hs with hs | hs
              · exact k8 sess hs
              · exact j4 sess hs
            · rw [List.map_append, List.sum_append, j5]
              omega

theorem drain_loop_ok (mix : Bool) (rooms : Nat) (fuel : Nat) (rem : LvlMap (List Mtch))
    (total : Nat) (hfuel : total ≤ fuel) (hsum : total = sumRemM rem) (hr : 1 ≤ rooms)
    (h1 : (rem.get .S1).isSome) (h2 : (rem.get .S2).isSome) :
    ∃ ds, drain_loop mix rooms fuel rem total = .ok ds := by
  induction fuel generalizing rem total with
  | zero =>
    have htz : total = 0 := by omega
    rw [drain_loop, if_pos htz]
    exact ⟨[], rfl⟩
  | succ fuel ih =>
    by_cases htz : total = 0
    · rw [drain_loop, if_pos htz]
      exact ⟨[], rfl⟩
    · rw [drain_loop, if_neg htz]
      obtain ⟨caps, hcaps, _⟩ := caps_spec rooms total 1 hr
      rw [hcaps]
      obtain ⟨csum, cbound, cmono, clen⟩ := caps_ok_facts _ _ _ _ hcaps
      obtain ⟨c0, cr, hcshape, hc0⟩ := caps_head_pos caps (by omega) cmono
      obtain ⟨ss0, rem0, tot0, hout, ho1, ho2⟩ := drain_caps_ok caps rem total h1 h2
      show ∃ ds, (match drain_caps caps rem total with
        | Except.error e => Except.error e
        | Except.ok (ss, rem', total') =>
          match drain_loop mix rooms fuel rem' total' with
          | Except.error e => Except.error e
          | Except.ok rest => Except.ok (ss ++ rest)) = Except.ok ds
      rw [hout]
      obtain ⟨k1, k2, k3, k4, k5, k6, k7, k8⟩ := drain_caps_facts _ _ _ _ _ _ hout
      have hprog : tot0 < total := by
        obtain ⟨f0, hf0⟩ : ∃ f0, c0 = f0 + 1 := ⟨c0 - 1, by omega⟩
        rw [hcshape] at hout
        rw [drain_caps] at hout
        split at hout
        next e hst => simp at hout
        next st' hst =>
          split at hout
          next e hrec => simp at hout
          next ss1 rem1 tot1 hrec =>
            simp only [Except.ok.injEq, Prod.mk.injEq] at hout
            obtain ⟨e1, e2, e3⟩ := hout
            rw [hf0] at hst
            have hlt := drain_fill_progress f0 rem total st' hst htz hsum h1 h2
            obtain ⟨q1, q2, q3, q4, q5, q6, q7, q8⟩ := drain_caps_facts _ _ _ _ _ _ hrec
            omega
      obtain ⟨ds, hds⟩ := ih rem0 tot0 (by omega) (k5 hsum) ho1 ho2
      show ∃ ds2, (match drain_loop mix rooms fuel rem0 tot0 with
        | Except.error e => Except.error e
        | Except.ok rest => Except.ok (ss0 ++ rest)) = Except.ok ds2
      rw [hds]
      exact ⟨ss0 ++ ds, rfl⟩

theorem vals_sum (rem : LvlMap (List Mtch)) :
    (rem.vals.map List.length).sum = sumRemM rem := by
  obtain ⟨s1, s2⟩ := rem
  cases s1 <;> cases s2 <;>
    simp [LvlMap.vals, sumRemM, remD, LvlMap.getD, LvlMap.get]

theorem remD_map_perm (plv : LvlMap (List Mtch)) (shuf : List Mtch → List Mtch)
    (hshuf : ∀ xs, (shuf xs).Perm xs) (l : Lvl) :
    (remD (plv.map shuf) l).Perm (remD plv l) := by
  obtain ⟨s1, s2⟩ := plv
  cases l <;> cases s1 <;> cases s2 <;>
    simp [remD, LvlMap.getD, LvlMap.get, LvlMap.map] <;>
    exact hshuf _

theorem occCount_perm (t : Team) (a b : List Mtch) (h : a.Perm b) :
    occCount t a = occCount t b := by
  simp only [occCount]
  rw [h.countP_eq, h.countP_eq]

theorem occCount_eq_zero (t : Team) (l : List Mtch)
    (h : ∀ m ∈ l, m.1 ≠ t ∧ m.2 ≠ t) : occCount t l = 0 := by
  have e1 : l.countP (fun m => m.1 == t) = 0 := by
    apply List.countP_eq_zero.mpr
    intro m hm
    simpa using (h m hm).1
  have e2 : l.countP (fun m => m.2 == t) = 0 := by
    apply List.countP_eq_zero.mpr
    intro m hm
    simpa using (h m hm).2
  simp [occCount, e1, e2]

theorem run_sessions_ok (mix : Bool) (caps : List Nat) (rem : LvlMap (List Mtch))
    (total : Nat) (h1 : (rem.get .S1).isSome) (h2 : (rem.get .S2).isSome) :
    ∃ ss rem' total', run_sessions mix caps rem total = .ok (ss, rem', total') ∧
      (rem'.get .S1).isSome ∧ (rem'.get .S2).isSome := by
  induction caps generalizing rem total with
  | nil => exact ⟨[], rem, total, rfl, h1, h2⟩
  | cons cap rest ih =>
    by_cases htz : total = 0
    · obtain ⟨ss0, rem0, tot0, hrec, ho1, ho2⟩ := ih rem total h1 h2
      refine ⟨[] :: ss0, rem0, tot0, ?_, ho1, ho2⟩
      rw [run_sessions, if_pos htz]
      show (match run_sessions mix rest rem total with
        | Except.error e => Except.error e
        | Except.ok (ss, rem', total') => Except.ok ([] :: ss, rem', total')) = Except.ok _
      rw [hrec]
    · obtain ⟨st', hst⟩ := fill_loop_ok mix
        ((rem.map (fun l => cdiv l.length (rest.length + 1)))) cap
        ⟨rem, total, [], [], []⟩ h1 h2
      obtain ⟨hstar, _⟩ := fill_loop_spec _ _ _ _ _ hst
      have hp := star_pres _ _ hstar
      have hp1 : (st'.rem.get .S1).isSome := by rw [hp .S1]; exact h1
      have hp2 : (st'.rem.get .S2).isSome := by rw [hp .S2]; exact h2
      obtain ⟨ss0, rem0, tot0, hrec, ho1, ho2⟩ := ih st'.rem st'.total hp1 hp2
      refine ⟨(st'.s1 ++ st'.s2) :: ss0, rem0, tot0, ?_, ho1, ho2⟩
      rw [run_sessions, if_neg htz, hst]
      show (match run_sessions mix rest st'.rem st'.total with
        | Except.error e => Except.error e
        | Except.ok (ss, rem', total') =>
          Except.ok ((st'.s1 ++ st'.s2) :: ss, rem', total')) = Except.ok _
      rw [hrec]

theorem sched_split (rooms : Nat) (plv : LvlMap (List Mtch)) (G : Nat) (mix : Bool)
    (shuf : List Mtch → List Mtch) (ss : List (List Asg))
    (h : schedule_sessions rooms plv G mix shuf = .ok ss) :
    ∃ est caps ss0 rem' total' ds,
      min_sessions_needed rooms (plv.map distinctTeams) G = .ok est ∧
      capacities_with_free_spread_at_end rooms
        (((plv.map shuf).vals.map List.length).sum) est = .ok caps ∧
      run_sessions mix caps (plv.map shuf)
        (((plv.map shuf).vals.map List.length).sum) = .ok (ss0, rem', total') ∧
      drain_loop mix rooms total' rem' total' = .ok ds ∧
      ss = ss0 ++ ds := by
  simp only [schedule_sessions] at h
  split at h
  next e he => exact absurd h (by simp)
  next est hest =>
    split at h
    next e he => exact absurd h (by simp)
    next caps hcaps =>
      split at h
      next e he => exact absurd h (by simp)
      next ss0 rem' total' hrun =>
        split at h
        next e he => exact absurd h (by simp)
        next ds hds =>
          simp only [Except.ok.injEq] at h
          exact ⟨est, caps, ss0, rem', total', ds, hest, hcaps, hrun, hds, h.symm⟩

theorem sched_facts (rooms : Nat) (plv : LvlMap (List Mtch)) (G : Nat) (mix : Bool)
    (shuf : List Mtch → List Mtch) (hshuf : ∀ xs, (shuf xs).Perm xs)
    (ss : List (List Asg)) (h : schedule_sessions rooms plv G mix shuf = .ok ss) :
    (∀ l, (remD plv l).Perm (sessMatches l ss.flatten)) ∧
    (∀ sess ∈ ss, sess.length ≤ rooms) ∧
    ((∀ l x, x ∈ remD plv l → x.1 ≠ x.2) → ∀ sess ∈ ss, (teamsOfAsgs sess).Nodup) ∧
    (∀ sess ∈ ss, ∃ u v, sess = u ++ v ∧ (∀ x ∈ u, x.1 = "S1") ∧ (∀ x ∈ v, x.1 = "S2")) := by
  obtain ⟨est, caps, ss0, rem', total', ds, hest, hcaps, hrun, hds, hss⟩ :=
    sched_split rooms plv G mix shuf ss h
  subst hss
  have hsum0 : (((plv.map shuf).vals.map List.length).sum) = sumRemM (plv.map shuf) :=
    vals_sum _
  obtain ⟨k1, k2, k3, k4, k5, k6, k7, k8, k9⟩ := run_sessions_facts _ _ _ _ _ _ _ hrun
  obtain ⟨j1, j2, j3, j4, j5⟩ := drain_loop_spec _ _ _ _ _ _ hds (k5 hsum0)
  obtain ⟨csum, cbound, cmono, clen⟩ := caps_ok_facts _ _ _ _ hcaps
  have hmem_plv : ∀ l x, x ∈ remD (plv.map shuf) l → x ∈ remD plv l := by
    intro l x hx
    exact (remD_map_perm plv shuf hshuf l).mem_iff.mp hx
  refine ⟨?_, ?_, ?_, ?_⟩
  · intro l
    refine ((remD_map_perm plv shuf hshuf l).symm).trans ?_
    refine (k2 l).trans ?_
    refine (List.Perm.append_left _ (j1 l)).trans ?_
    rw [List.flatten_append, sessMatches_append]
  · intro sess hs
    rcases List.mem_append.mp hs with hs | hs
    · obtain ⟨c, hc1, hc2⟩ := k6 sess hs
      exact le_trans hc2 (cbound c hc1)
    · exact j2 sess hs
  · intro hd sess hs
    have hd' : ∀ l x, x ∈ remD (plv.map shuf) l → x.1 ≠ x.2 := by
      intro l x hx
      exact hd l x (hmem_plv l x hx)
    rcases List.mem_append.mp hs with hs | hs
    · exact k7 hd' sess hs
    · refine j3 ?_ sess hs
      intro l x hx
      exact hd' l x (k3 l x hx)
  · intro sess hs
    rcases List.mem_append.mp hs with hs | hs
    · exact k8 sess hs
    · exact j4 sess hs

theorem knownAsgs_cons_none (tbl : List (String × List Team)) (x : Asg)
    (rest : List Asg) (hx : tbl.lookup x.1 = none) :
    knownAsgs tbl (x :: rest) = knownAsgs tbl rest := by
  simp [knownAsgs, List.filter_cons, hx]

theorem knownAsgs_cons_some (tbl : List (String × List Team)) (x : Asg)
    (rest : List Asg) (roster : List Team) (hx : tbl.lookup x.1 = some roster) :
    knownAsgs tbl (x :: rest) = x :: knownAsgs tbl rest := by
  simp [knownAsgs, List.filter_cons, hx]

theorem sessChk_iff (tbl : List (String × List Team)) (t2s : String → Team → String)
    (sess : List Asg) (used : List Team) :
    sessChk tbl t2s sess used = true ↔
      ((∀ x ∈ knownAsgs tbl sess, ∀ roster, tbl.lookup x.1 = some roster →
          x.2.1 ∈ roster ∧ x.2.2 ∈ roster) ∧
       (∀ x ∈ knownAsgs tbl sess, t2s x.1 x.2.1 ≠ t2s x.1 x.2.2) ∧
       (sessTeamsKnown tbl sess).Nodup ∧
       (∀ t ∈ sessTeamsKnown tbl sess, t ∉ used)) := by
  induction sess generalizing used with
  | nil => simp [sessChk, knownAsgs, sessTeamsKnown, teamsOfAsgs]
  | cons x rest ih =>
    rw [sessChk]
    cases hx : tbl.lookup x.1 with
    | none =>
      rw [knownAsgs_cons_none tbl x rest hx]
      have hst : sessTeamsKnown tbl (x :: rest) = sessTeamsKnown tbl rest := by
        rw [sessTeamsKnown, knownAsgs_cons_none tbl x rest hx]
        rfl
      rw [hst]
      exact ih used
    | some roster =>
      rw [knownAsgs_cons_some tbl x rest roster hx]
      have hst : sessTeamsKnown tbl (x :: rest) =
          x.2.1 :: x.2.2 :: sessTeamsKnown tbl rest := by
        rw [sessTeamsKnown, knownAsgs_cons_some tbl x rest roster hx]
        rfl
      rw [hst]
      simp only [Bool.and_eq_true, Bool.not_eq_true']
      rw [ih (used ++ [x.2.1, x.2.2])]
      constructor
      · rintro ⟨⟨⟨⟨⟨hA, hB⟩, hSch⟩, hUA⟩, hUB⟩, hr1, hr2, hr3, hr4⟩
        have hA' : x.2.1 ∈ roster := by simpa using hA
        have hB' : x.2.2 ∈ roster := by simpa using hB
        have hSch' : t2s x.1 x.2.1 ≠ t2s x.1 x.2.2 := by simpa using hSch
        have hUA' : x.2.1 ∉ used := by simpa using hUA
        have hUB' : x.2.2 ∉ used := by simpa using hUB
        have hAB : x.2.1 ≠ x.2.2 := by
          intro he
          exact hSch' (by rw [he])
        refine ⟨?_, ?_, ?_, ?_⟩
        · intro y hy r hr
          rcases List.mem_cons.mp hy with hy | hy
          · subst hy
            rw [hx] at hr
            cases hr
            exact ⟨hA', hB'⟩
          · exact hr1 y hy r hr
        · intro y hy
          rcases List.mem_cons.mp hy with hy | hy
          · subst hy; exact hSch'
          · exact hr2 y hy
        · rw [List.nodup_cons, List.nodup_cons]
          have hA4 : x.2.1 ∉ sessTeamsKnown tbl rest := by
            intro hmem
            exact (hr4 _ hmem) (by simp)
          have hB4 : x.2.2 ∉ sessTeamsKnown tbl rest := by
            intro hmem
            exact (hr4 _ hmem) (by simp)
          refine ⟨?_, hB4, hr3⟩
          intro hmem
          rcases List.mem_cons.mp hmem with hmem | hmem
          · exact hAB hmem
          · exact hA4 hmem
        · intro t ht
          rcases List.mem_cons.mp ht with ht | ht
          · subst ht; exact hUA'
          rcases List.mem_cons.mp ht with ht | ht
          · subst ht; exact hUB'
          · intro hmem
            exact (hr4 t ht) (List.mem_append.mpr (Or.inl hmem))
      · rintro ⟨g1, g2, g3, g4⟩
        have hA : x.2.1 ∈ roster ∧ x.2.2 ∈ roster :=
          g1 x (by simp) roster hx
        have hSch : ¬ t2s x.1 x.2.1 = t2s x.1 x.2.2 := g2 x (by simp)
        have hUA : x.2.1 ∉ used := g4 x.2.1 (by simp)
        have hUB : x.2.2 ∉ used := g4 x.2.2 (by simp)
        rw [List.nodup_cons, List.nodup_cons] at g3
        refine ⟨⟨⟨⟨⟨by simpa using hA.1, by simpa using hA.2⟩,
          by simpa using hSch⟩, by simpa using hUA⟩, by simpa using hUB⟩, ?_, ?_,
          g3.2.2, ?_⟩
        · intro y hy r hr
          exact g1 y (List.mem_cons_of_mem x hy) r hr
        · intro y hy
          exact g2 y (List.mem_cons_of_mem x hy)
        · intro t ht
          rw [List.mem_append]
          rintro (hmem | hmem)
          · exact (g4 t (by simp [ht])) hmem
          · rcases List.mem_cons.mp hmem with he | he
            · subst he
              exact g3.1 (List.mem_cons_of_mem _ ht)
            · rw [List.mem_singleton] at he
              subst he
              exact g3.2.1 ht

theorem verify_true_iff (sessions : List (List Asg)) (tbl : List (String × List Team))
    (t2s : String → Team → String) (G R : Nat) :
    verify sessions tbl t2s G R = true ↔ ¬ Viol sessions tbl t2s G R := by
  rw [verify]
  simp only [Bool.and_eq_true, List.all_eq_true, decide_eq_true_eq, beq_iff_eq]
  constructor
  · rintro ⟨hA, hB⟩ hviol
    rcases hviol with h | h | h | h | h
    · obtain ⟨sess, hs, hlen⟩ := h
      have hle : sess.length ≤ R := (hA sess hs).1
      omega
    · obtain ⟨sess, hs, x, hxs, roster, hr, hbad⟩ := h
      have hchk := (hA sess hs).2
      rw [sessChk_iff] at hchk
      have hxk : x ∈ knownAsgs tbl sess :=
        List.mem_filter.mpr ⟨hxs, by simp [hr]⟩
      have := hchk.1 x hxk roster hr
      tauto
    · obtain ⟨sess, hs, x, hxs, hsome, heq⟩ := h
      have hchk := (hA sess hs).2
      rw [sessChk_iff] at hchk
      have hxk : x ∈ knownAsgs tbl sess :=
        List.mem_filter.mpr ⟨hxs, by simpa using hsome⟩
      exact (hchk.2.1 x hxk) heq
    · obtain ⟨sess, hs, hnd⟩ := h
      have hchk := (hA sess hs).2
      rw [sessChk_iff] at hchk
      exact hnd hchk.2.2.1
    · obtain ⟨p, hp, t, ht, hne⟩ := h
      exact hne (hB p hp t ht)
  · intro hnv
    constructor
    · intro sess hs
      constructor
      · by_contra hlen
        exact hnv (Or.inl ⟨sess, hs, by omega⟩)
      · rw [sessChk_iff]
        refine ⟨?_, ?_, ?_, by simp⟩
        · intro x hx roster hr
          by_contra hbad
          apply hnv
          refine Or.inr (Or.inl ⟨sess, hs, x, (List.mem_filter.mp hx).1, roster, hr, ?_⟩)
          tauto
        · intro x hx heq
          apply hnv
          obtain ⟨hx1, hx2⟩ := List.mem_filter.mp hx
          exact Or.inr (Or.inr (Or.inl ⟨sess, hs, x, hx1, by simpa using hx2, heq⟩))
        · by_contra hnd
          exact hnv (Or.inr (Or.inr (Or.inr (Or.inl ⟨sess, hs, hnd⟩))))
    · intro p hp t ht
      by_contra hne
      exact hnv (Or.inr (Or.inr (Or.inr (Or.inr ⟨p, hp, t, ht, hne⟩))))

theorem sessMatches_cons (l : Lvl) (x : Asg) (L : List Asg) :
    sessMatches l (x :: L) =
      if x.1 = l.str then (x.2.1, x.2.2) :: sessMatches l L else sessMatches l L := by
  by_cases hx : x.1 = l.str
  · simp [sessMatches, List.filter_cons, hx]
  · simp [sessMatches, List.filter_cons, hx]

theorem asgOcc_split (t : Team) (L : List Asg)
    (htags : ∀ x ∈ L, x.1 = "S1" ∨ x.1 = "S2") :
    (L.map (asgOcc t)).sum =
      occCount t (sessMatches .S1 L) + occCount t (sessMatches .S2 L) := by
  induction L with
  | nil => simp [sessMatches, occCount]
  | cons x rest ih =>
    have hr := ih (fun y hy => htags y (List.mem_cons_of_mem x hy))
    have hocc : asgOcc t x =
        occCount t [(x.2.1, x.2.2)] := by
      rw [occCount_single, asgOcc]
      congr 1
      · by_cases h : x.2.1 = t
        · rw [if_pos h, if_pos h.symm]
        · rw [if_neg h, if_neg (fun hh => h hh.symm)]
      · by_cases h : x.2.2 = t
        · rw [if_pos h, if_pos h.symm]
        · rw [if_neg h, if_neg (fun hh => h hh.symm)]
    rcases htags x (by simp) with hx | hx
    · rw [List.map_cons, List.sum_cons, hr,
        sessMatches_cons Lvl.S1 x rest, sessMatches_cons Lvl.S2 x rest,
        if_pos (by simpa [Lvl.str] using hx), if_neg (by simp [Lvl.str, hx])]
      have : occCount t ((x.2.1, x.2.2) :: sessMatches Lvl.S1 rest) =
          occCount t [(x.2.1, x.2.2)] + occCount t (sessMatches Lvl.S1 rest) := by
        have := occCount_append t [(x.2.1, x.2.2)] (sessMatches Lvl.S1 rest)
        simpa using this
      rw [this, hocc]
      omega
    · rw [List.map_cons, List.sum_cons, hr,
        sessMatches_cons Lvl.S1 x rest, sessMatches_cons Lvl.S2 x rest,
        if_neg (by simp [Lvl.str, hx]), if_pos (by simpa [Lvl.str] using hx)]
      have : occCount t ((x.2.1, x.2.2) :: sessMatches Lvl.S2 rest) =
          occCount t [(x.2.1, x.2.2)] + occCount t (sessMatches Lvl.S2 rest) := by
        have := occCount_append t [(x.2.1, x.2.2)] (sessMatches Lvl.S2 rest)
        simpa using this
      rw [this, hocc]
      omega

theorem perTeamCount_eq (tbl : List (String × List Team)) (ss : List (List Asg))
    (t : Team)
    (hknown : ∀ sess ∈ ss, knownAsgs tbl sess = sess)
    (htags : ∀ sess ∈ ss, ∀ x ∈ sess, x.1 = "S1" ∨ x.1 = "S2") :
    perTeamCount tbl ss t =
      occCount t (sessMatches .S1 ss.flatten) + occCount t (sessMatches .S2 ss.flatten) := by
  rw [perTeamCount]
  have hmap : ss.map (knownAsgs tbl) = ss := by
    have : ss.map (knownAsgs tbl) = ss.map id := List.map_congr_left hknown
    simpa using this
  rw [hmap]
  apply asgOcc_split
  intro x hx
  obtain ⟨sess, hsess, hxs⟩ := List.mem_flatten.mp hx
  exact htags sess hsess x hxs

/-- C9 (counterexample): the claim quantifies over every schedule, including
ones with assignments whose category label is not a key of `teams_by_level`,
and lists "some team appears twice within one session" among the invariants
whose violation must make `verify` raise; but `verify` skips unknown-label
assignments (`continue`), so on `sched9` — one session scheduling team `A`
(and `B`) twice, the second time under the unknown label `"SX"` — it raises
nothing although a team appears twice in the session. -/
theorem c9_counterexample :
    verify sched9 tbl9 t2s9 1 2 = true ∧
    ∃ sess ∈ sched9, ¬ (teamsOfAsgs sess).Nodup := by
  refine ⟨by decide, ⟨[("S1", "A", "B"), ("SX", "A", "B")], by simp [sched9], by decide⟩⟩

/-- C9 (amended): `verify` raises if and only if the given schedule violates
at least one of the five checked invariants restricted — as the code's
`continue` restricts them — to assignments whose category label is a key of
`teams_by_level`: some session holds more than `rooms` assignments; some
non-skipped assignment has a team outside its declared category's roster;
some non-skipped assignment pairs two teams of the same school; some team
appears twice among the non-skipped assignments of one session; or some
roster team's total count over the non-skipped assignments differs from
`games_per_team`. -/
theorem c9_verify_raises_iff (sessions : List (List Asg))
    (tbl : List (String × List Team)) (t2s : String → Team → String) (G R : Nat) :
    verify sessions tbl t2s G R = false ↔ Viol sessions tbl t2s G R := by
  have h := verify_true_iff sessions tbl t2s G R
  constructor
  · intro hf
    by_contra hnv
    have ht : verify sessions tbl t2s G R = true := h.mpr hnv
    rw [hf] at ht
    cases ht
  · intro hv
    cases hb : verify sessions tbl t2s G R with
    | false => rfl
    | true => exact absurd hv (h.mp hb)

/-- C2 (counterexample): the per-category rosters may share team names (the
callers build names per category), and then `verify` raises on a schedule
returned by `schedule_sessions`: with the same roster `["X1", "Y1"]` in both
categories, `G = 1`, one room, the run succeeds but the `per_team` Counter
keys on the bare team name, counts `2 ≠ G` for each team, and the final
assert fires. -/
theorem c2_counterexample :
    build_pairings ["X1", "Y1"] t2sXY 1 rnd0 = .ok [("X1", "Y1")] ∧
    schedule_sessions 1 ⟨some [("X1", "Y1")], some [("X1", "Y1")]⟩ 1 true idShuf =
      .ok [[("S1", "X1", "Y1")], [("S2", "X1", "Y1")]] ∧
    verify [[("S1", "X1", "Y1")], [("S2", "X1", "Y1")]]
      (tblOf (some [("X1", "Y1")]) ["X1", "Y1"] (some [("X1", "Y1")]) ["X1", "Y1"])
      (t2sOf t2sXY t2sXY) 1 1 = false := by
  exact ⟨rfl, rfl, by decide⟩

set_option maxHeartbeats 2000000 in
/-- C2 (amended): for every valid run whose PRESENT per-category rosters are
disjoint — each present category's pairing list produced by
`build_pairings`, one dict key per present category exactly as the callers
build it (either key may be absent), any shuffle and any mixing mode —
`verify` on a schedule returned normally by `schedule_sessions`, with the
same rosters, school maps, `G` and room count, never raises.  Only the
roster-disjointness hypothesis is added to the original claim, and it binds
only when both categories are present. -/
theorem c2_amended (teams1 teams2 : List Team) (t2s1 t2s2 : Team → String)
    (G rooms : Nat) (rnd1 rnd2 : Nat → Nat) (mix : Bool)
    (shuf : List Mtch → List Mtch) (hshuf : ∀ xs, (shuf xs).Perm xs)
    (o1 o2 : Option (List Mtch))
    (h1 : ∀ m, o1 = some m → build_pairings teams1 t2s1 G rnd1 = .ok m)
    (h2 : ∀ m, o2 = some m → build_pairings teams2 t2s2 G rnd2 = .ok m)
    (hdisj : o1.isSome → o2.isSome → ∀ t, t ∈ teams1 → t ∉ teams2)
    (ss : List (List Asg))
    (hs : schedule_sessions rooms ⟨o1, o2⟩ G mix shuf = .ok ss) :
    verify ss (tblOf o1 teams1 o2 teams2) (t2sOf t2s1 t2s2) G rooms = true := by
  obtain ⟨p1, p2, p3, p4⟩ := sched_facts rooms ⟨o1, o2⟩ G mix shuf hshuf ss hs
  have hbp1 : ∀ x ∈ remD ⟨o1, o2⟩ Lvl.S1,
      (x.1 ∈ teams1 ∧ x.2 ∈ teams1) ∧ t2s1 x.1 ≠ t2s1 x.2 := by
    cases o1 with
    | none =>
      intro x hx
      simp [remD, LvlMap.getD, LvlMap.get] at hx
    | some m =>
      obtain ⟨b1, b2, b3, b4⟩ := bp_ok_spec teams1 t2s1 G rnd1 m (h1 m rfl)
      intro x hx
      have hxm : x ∈ m := by simpa [remD, LvlMap.getD, LvlMap.get] using hx
      exact ⟨b3 x hxm, b2 x hxm⟩
  have hbp2 : ∀ x ∈ remD ⟨o1, o2⟩ Lvl.S2,
      (x.1 ∈ teams2 ∧ x.2 ∈ teams2) ∧ t2s2 x.1 ≠ t2s2 x.2 := by
    cases o2 with
    | none =>
      intro x hx
      simp [remD, LvlMap.getD, LvlMap.get] at hx
    | some m =>
      obtain ⟨b1, b2, b3, b4⟩ := bp_ok_spec teams2 t2s2 G rnd2 m (h2 m rfl)
      intro x hx
      have hxm : x ∈ m := by simpa [remD, LvlMap.getD, LvlMap.get] using hx
      exact ⟨b3 x hxm, b2 x hxm⟩
  have hoccG1 : o1.isSome → ∀ t ∈ teams1, occCount t (remD ⟨o1, o2⟩ Lvl.S1) = G := by
    cases o1 with
    | none => intro hsome; simp at hsome
    | some m =>
      intro _ t ht
      obtain ⟨b1, b2, b3, b4⟩ := bp_ok_spec teams1 t2s1 G rnd1 m (h1 m rfl)
      simpa [remD, LvlMap.getD, LvlMap.get] using b1 t ht
  have hoccG2 : o2.isSome → ∀ t ∈ teams2, occCount t (remD ⟨o1, o2⟩ Lvl.S2) = G := by
    cases o2 with
    | none => intro hsome; simp at hsome
    | some m =>
      intro _ t ht
      obtain ⟨b1, b2, b3, b4⟩ := bp_ok_spec teams2 t2s2 G rnd2 m (h2 m rfl)
      simpa [remD, LvlMap.getD, LvlMap.get] using b1 t ht
  have hz2 : o1.isSome → ∀ t ∈ teams1, occCount t (remD ⟨o1, o2⟩ Lvl.S2) = 0 := by
    intro hs1 t ht
    cases o2 with
    | none => simp [remD, LvlMap.getD, LvlMap.get, occCount]
    | some m =>
      have hnt : t ∉ teams2 := hdisj hs1 rfl t ht
      obtain ⟨b1, b2, b3, b4⟩ := bp_ok_spec teams2 t2s2 G rnd2 m (h2 m rfl)
      have hrm : remD ⟨o1, some m⟩ Lvl.S2 = m := rfl
      rw [hrm]
      apply occCount_eq_zero
      intro mm hmm
      have hm2 := b3 mm hmm
      constructor
      · intro he
        rw [he] at hm2
        exact hnt hm2.1
      · intro he
        rw [he] at hm2
        exact hnt hm2.2
  have hz1 : o2.isSome → ∀ t ∈ teams2, occCount t (remD ⟨o1, o2⟩ Lvl.S1) = 0 := by
    intro hs2 t ht
    cases o1 with
    | none => simp [remD, LvlMap.getD, LvlMap.get, occCount]
    | some m =>
      have hnt : t ∉ teams1 := by
        intro hmem
        exact (hdisj rfl hs2 t hmem) ht
      obtain ⟨b1, b2, b3, b4⟩ := bp_ok_spec teams1 t2s1 G rnd1 m (h1 m rfl)
      have hrm : remD ⟨some m, o2⟩ Lvl.S1 = m := rfl
      rw [hrm]
      apply occCount_eq_zero
      intro mm hmm
      have hm1 := b3 mm hmm
      constructor
      · intro he
        rw [he] at hm1
        exact hnt hm1.1
      · intro he
        rw [he] at hm1
        exact hnt hm1.2
  have hlk1s : o1.isSome → (tblOf o1 teams1 o2 teams2).lookup "S1" = some teams1 := by
    cases o1 <;> cases o2 <;> intro hsome <;> first | rfl | simp at hsome
  have hlk2s : o2.isSome → (tblOf o1 teams1 o2 teams2).lookup "S2" = some teams2 := by
    cases o1 <;> cases o2 <;> intro hsome <;> first | rfl | simp at hsome
  have htags : ∀ sess ∈ ss, ∀ x ∈ sess, x.1 = "S1" ∨ x.1 = "S2" := by
    intro sess hsess x hx
    obtain ⟨u, v, he, hu, hv⟩ := p4 sess hsess
    subst he
    rcases List.mem_append.mp hx with hx | hx
    · exact Or.inl (hu x hx)
    · exact Or.inr (hv x hx)
  have hmemF : ∀ sess ∈ ss, ∀ x ∈ sess, ∀ (l : Lvl), x.1 = l.str →
      (x.2.1, x.2.2) ∈ sessMatches l ss.flatten := by
    intro sess hsess x hx l hl
    apply List.mem_map.mpr
    exact ⟨x, List.mem_filter.mpr
      ⟨List.mem_flatten.mpr ⟨sess, hsess, hx⟩, by simp [hl]⟩, rfl⟩
  have habs1 : o1 = none → sessMatches Lvl.S1 ss.flatten = [] := by
    intro ho
    have hperm := p1 Lvl.S1
    rw [ho] at hperm
    have hrm : remD ⟨none, o2⟩ Lvl.S1 = [] := rfl
    rw [hrm] at hperm
    exact List.Perm.eq_nil hperm.symm
  have habs2 : o2 = none → sessMatches Lvl.S2 ss.flatten = [] := by
    intro ho
    have hperm := p1 Lvl.S2
    rw [ho] at hperm
    have hrm : remD ⟨o1, none⟩ Lvl.S2 = [] := rfl
    rw [hrm] at hperm
    exact List.Perm.eq_nil hperm.symm
  have hpres : ∀ sess ∈ ss, ∀ x ∈ sess,
      (x.1 = "S1" ∧ o1.isSome) ∨ (x.1 = "S2" ∧ o2.isSome) := by
    intro sess hsess x hx
    rcases htags sess hsess x hx with hx1 | hx1
    · refine Or.inl ⟨hx1, ?_⟩
      by_contra hns
      have ho : o1 = none := by
        cases o1
        · rfl
        · simp at hns
      have hmem := hmemF sess hsess x hx Lvl.S1 hx1
      rw [habs1 ho] at hmem
      simp at hmem
    · refine Or.inr ⟨hx1, ?_⟩
      by_contra hns
      have ho : o2 = none := by
        cases o2
        · rfl
        · simp at hns
      have hmem := hmemF sess hsess x hx Lvl.S2 hx1
      rw [habs2 ho] at hmem
      simp at hmem
  have hknown : ∀ sess ∈ ss,
      knownAsgs (tblOf o1 teams1 o2 teams2) sess = sess := by
    intro sess hsess
    apply List.filter_eq_self.mpr
    intro x hx
    rcases hpres sess hsess x hx with ⟨hx1, hp⟩ | ⟨hx1, hp⟩
    · rw [hx1, hlk1s hp]
      rfl
    · rw [hx1, hlk2s hp]
      rfl
  have hd : ∀ (l : Lvl) (x : Mtch), x ∈ remD ⟨o1, o2⟩ l → x.1 ≠ x.2 := by
    intro l x hx he
    cases l with
    | S1 => exact ((hbp1 x hx).2) (by rw [he])
    | S2 => exact ((hbp2 x hx).2) (by rw [he])
  rw [verify_true_iff]
  intro hviol
  rcases hviol with h | h | h | h | h
  · obtain ⟨sess, hsess, hlen⟩ := h
    have := p2 sess hsess
    omega
  · obtain ⟨sess, hsess, x, hx, roster, hr, hbad⟩ := h
    rcases hpres sess hsess x hx with ⟨hx1, hp⟩ | ⟨hx1, hp⟩
    · rw [hx1, hlk1s hp] at hr
      cases hr
      have hmem : (x.2.1, x.2.2) ∈ remD ⟨o1, o2⟩ Lvl.S1 :=
        (p1 Lvl.S1).mem_iff.mpr (hmemF sess hsess x hx Lvl.S1 hx1)
      have := (hbp1 _ hmem).1
      simp only [] at this
      tauto
    · rw [hx1, hlk2s hp] at hr
      cases hr
      have hmem : (x.2.1, x.2.2) ∈ remD ⟨o1, o2⟩ Lvl.S2 :=
        (p1 Lvl.S2).mem_iff.mpr (hmemF sess hsess x hx Lvl.S2 hx1)
      have := (hbp2 _ hmem).1
      simp only [] at this
      tauto
  · obtain ⟨sess, hsess, x, hx, hsome, heq⟩ := h
    rcases hpres sess hsess x hx with ⟨hx1, hp⟩ | ⟨hx1, hp⟩
    · have hmem : (x.2.1, x.2.2) ∈ remD ⟨o1, o2⟩ Lvl.S1 :=
        (p1 Lvl.S1).mem_iff.mpr (hmemF sess hsess x hx Lvl.S1 hx1)
      have hne := (hbp1 _ hmem).2
      rw [hx1] at heq
      simp only [t2sOf, if_pos rfl] at heq
      exact hne heq
    · have hmem : (x.2.1, x.2.2) ∈ remD ⟨o1, o2⟩ Lvl.S2 :=
        (p1 Lvl.S2).mem_iff.mpr (hmemF sess hsess x hx Lvl.S2 hx1)
      have hne := (hbp2 _ hmem).2
      rw [hx1] at heq
      simp only [t2sOf] at heq
      rw [if_neg (by decide)] at heq
      exact hne heq
  · obtain ⟨sess, hsess, hnd⟩ := h
    apply hnd
    rw [sessTeamsKnown, hknown sess hsess]
    exact p3 hd sess hsess
  · obtain ⟨p, hp, t, ht, hne⟩ := h
    apply hne
    rw [perTeamCount_eq _ _ _ hknown htags]
    have ho1 : occCount t (sessMatches .S1 ss.flatten) =
        occCount t (remD ⟨o1, o2⟩ Lvl.S1) :=
      occCount_perm t _ _ (p1 .S1).symm
    have ho2 : occCount t (sessMatches .S2 ss.flatten) =
        occCount t (remD ⟨o1, o2⟩ Lvl.S2) :=
      occCount_perm t _ _ (p1 .S2).symm
    rw [ho1, ho2]
    have hptbl : (o1.isSome ∧ p = ("S1", teams1)) ∨
        (o2.isSome ∧ p = ("S2", teams2)) := by
      cases o1 <;> cases o2 <;> simp [tblOf] at hp ⊢ <;> tauto
    rcases hptbl with ⟨hp1, hpe⟩ | ⟨hp2, hpe⟩
    · have hteq : p.2 = teams1 := by rw [hpe]
      rw [hteq] at ht
      rw [hoccG1 hp1 t ht, hz2 hp1 t ht]
      omega
    · have hteq : p.2 = teams2 := by rw [hpe]
      rw [hteq] at ht
      rw [hoccG2 hp2 t ht, hz1 hp2 t ht]
      omega

/-- Witness for the amended C2 at a concrete disjoint-roster run: two
categories of two teams each, `G = 1`, two rooms. -/
theorem c2_amended_witness :
    verify [[("S1", "A1", "B1")], [("S2", "X1", "Y1")]]
      (tblOf (some [("A1", "B1")]) ["A1", "B1"] (some [("X1", "Y1")]) ["X1", "Y1"])
      (t2sOf t2sAB t2sXY) 1 2 = true :=
  c2_amended ["A1", "B1"] ["X1", "Y1"] t2sAB t2sXY 1 2 rnd0 rnd0 true idShuf
    (fun xs => List.Perm.refl xs) (some [("A1", "B1")]) (some [("X1", "Y1")])
    (fun m hm => by cases hm; rfl) (fun m hm => by cases hm; rfl)
    (fun _ _ => by decide) [[("S1", "A1", "B1")], [("S2", "X1", "Y1")]] rfl

theorem sched_ok (rooms G : Nat) (hr : 1 ≤ rooms) (m1 m2 : List Mtch) (mix : Bool)
    (shuf : List Mtch → List Mtch) :
    ∃ ss, schedule_sessions rooms ⟨some m1, some m2⟩ G mix shuf = .ok ss := by
  obtain ⟨est, hest⟩ : ∃ est, min_sessions_needed rooms
      ((⟨some m1, some m2⟩ : LvlMap (List Mtch)).map distinctTeams) G = .ok est := by
    simp only [min_sessions_needed]
    rw [if_neg (by omega)]
    exact ⟨_, rfl⟩
  obtain ⟨caps, hcaps, _⟩ := caps_spec rooms
    ((((⟨some m1, some m2⟩ : LvlMap (List Mtch)).map shuf).vals.map List.length).sum) est hr
  have hp1 : (((⟨some m1, some m2⟩ : LvlMap (List Mtch)).map shuf).get .S1).isSome := rfl
  have hp2 : (((⟨some m1, some m2⟩ : LvlMap (List Mtch)).map shuf).get .S2).isSome := rfl
  obtain ⟨ss0, rem0, tot0, hrun, ho1, ho2⟩ := run_sessions_ok mix caps
    ((⟨some m1, some m2⟩ : LvlMap (List Mtch)).map shuf)
    ((((⟨some m1, some m2⟩ : LvlMap (List Mtch)).map shuf).vals.map List.length).sum)
    hp1 hp2
  obtain ⟨k1, k2, k3, k4, k5, k6, k7, k8, k9⟩ := run_sessions_facts _ _ _ _ _ _ _ hrun
  obtain ⟨ds, hds⟩ := drain_loop_ok mix rooms tot0 rem0 tot0 le_rfl
    (k5 (vals_sum _)) hr ho1 ho2
  refine ⟨ss0 ++ ds, ?_⟩
  simp only [schedule_sessions, hest, hcaps, hrun, hds]

/-- C6 (counterexample): the callers build `pairings_by_level` with one entry
per category that has at least two teams, so a single-category dict is a
valid pairing output; on it the packer's drain loop reads both hard-coded
keys `remaining["S1"]` and `remaining["S2"]` and dies with a `KeyError`
instead of terminating normally — here on the three-team triangle produced
by `build_pairings` with `G = 2` and `rooms = 3`. -/
theorem c6_counterexample :
    build_pairings ["A1", "B1", "C1"] t2s3 2 rnd0 =
      .ok [("A1", "B1"), ("A1", "C1"), ("B1", "C1")] ∧
    schedule_sessions 3
      ⟨some [("A1", "B1"), ("A1", "C1"), ("B1", "C1")], none⟩ 2 true idShuf =
      .error .keyError := ⟨by decide, by decide⟩

/-- C6 (amended): when BOTH category keys are present in the pairing dict
(and `rooms ≥ 1`), session packing indeed never fails: `schedule_sessions`
terminates normally — the drain loop strictly decreases `total_remaining`
on each pass — and the returned schedule places, per category, exactly the
input matches. -/
theorem c6_amended (rooms G : Nat) (hr : 1 ≤ rooms) (m1 m2 : List Mtch) (mix : Bool)
    (shuf : List Mtch → List Mtch) (hshuf : ∀ xs, (shuf xs).Perm xs) :
    ∃ ss, schedule_sessions rooms ⟨some m1, some m2⟩ G mix shuf = .ok ss ∧
      (∀ l, (remD ⟨some m1, some m2⟩ l).Perm (sessMatches l ss.flatten)) := by
  obtain ⟨ss, hss⟩ := sched_ok rooms G hr m1 m2 mix shuf
  exact ⟨ss, hss, (sched_facts rooms _ G mix shuf hshuf ss hss).1⟩

/-- Witness for the amended C6 at a concrete two-category run. -/
theorem c6_amended_witness :
    ∃ ss, schedule_sessions 1
        ⟨some [("A1", "B1")], some [("X1", "Y1")]⟩ 1 true idShuf = .ok ss ∧
      (∀ l, (remD ⟨some [("A1", "B1")], some [("X1", "Y1")]⟩ l).Perm
        (sessMatches l ss.flatten)) :=
  c6_amended 1 1 (by decide) [("A1", "B1")] [("X1", "Y1")] true idShuf
    (fun xs => List.Perm.refl xs)

/-- C7 (counterexample): an invalid room count is NOT rejected with a
`ConfigurationError`-kind error: `rooms = 0` reaches `min_sessions_needed`
and surfaces as a `ZeroDivisionError` from `math.ceil(total / rooms)` (and a
negative room count makes the Python drain loop spin forever rather than
raise) — `rooms` is never validated anywhere. -/
theorem c7_counterexample :
    schedule_sessions 0 ⟨some [("A1", "B1")], none⟩ 1 true idShuf =
      .error .zeroDiv := rfl

/-- C7 (amended): the four static validations of `build_pairings` — fewer
than two teams, non-positive `G`, odd total team-slots, no legal inter-school
pair — are each rejected with a `ValueError` (the `ConfigurationError` kind)
before any match is generated; but the room count is never validated:
`rooms = 0` surfaces as a `ZeroDivisionError` from the first division
instead of a configuration error. -/
theorem c7_amended :
    (∀ (teams : List Team) (t2s : Team → String) (G : Nat) (rnd : Nat → Nat),
      teams.length < 2 →
      ∃ msg, build_pairings teams t2s G rnd = .error (.value msg)) ∧
    (∀ (teams : List Team) (t2s : Team → String) (rnd : Nat → Nat),
      2 ≤ teams.length →
      ∃ msg, build_pairings teams t2s 0 rnd = .error (.value msg)) ∧
    (∀ (teams : List Team) (t2s : Team → String) (G : Nat) (rnd : Nat → Nat),
      2 ≤ teams.length → 1 ≤ G → teams.length * G % 2 ≠ 0 →
      ∃ msg, build_pairings teams t2s G rnd = .error (.value msg)) ∧
    (∀ (teams : List Team) (t2s : Team → String) (G : Nat) (rnd : Nat → Nat),
      2 ≤ teams.length → 1 ≤ G → teams.length * G % 2 = 0 →
      all_allowed_pairs teams t2s = [] →
      ∃ msg, build_pairings teams t2s G rnd = .error (.value msg)) ∧
    (∀ (plv : LvlMap (List Mtch)) (G : Nat) (mix : Bool)
      (shuf : List Mtch → List Mtch),
      schedule_sessions 0 plv G mix shuf = .error .zeroDiv) := by
  refine ⟨?_, ?_, ?_, ?_, ?_⟩
  · intro teams t2s G rnd h
    rw [build_pairings, if_pos h]
    exact ⟨_, rfl⟩
  · intro teams t2s rnd h
    rw [build_pairings, if_neg (by omega), if_pos (by omega)]
    exact ⟨_, rfl⟩
  · intro teams t2s G rnd h hG hodd
    rw [build_pairings, if_neg (by omega), if_neg (by omega), if_pos hodd]
    exact ⟨_, rfl⟩
  · intro teams t2s G rnd h hG hev hnp
    rw [build_pairings, if_neg (by omega), if_neg (by omega), if_neg (by omega),
      if_pos (by simp [hnp])]
    exact ⟨_, rfl⟩
  · intro plv G mix shuf
    simp [schedule_sessions, min_sessions_needed]

/-- Witness for the amended C7: one concrete input per rejected shape, plus
the `rooms = 0` run. -/
theorem c7_amended_witness :
    (∃ msg, build_pairings ["A1"] t2sAB 1 rnd0 = .error (.value msg)) ∧
    (∃ msg, build_pairings ["A1", "B1"] t2sAB 0 rnd0 = .error (.value msg)) ∧
    (∃ msg, build_pairings ["A1", "B1", "C1"] t2s3 1 rnd0 = .error (.value msg)) ∧
    (∃ msg, build_pairings ["A1", "B1"] (fun _ => "S") 1 rnd0 =
      .error (.value msg)) ∧
    schedule_sessions 0 ⟨some [("A1", "B1")], none⟩ 1 true idShuf =
      .error .zeroDiv :=
  ⟨c7_amended.1 ["A1"] t2sAB 1 rnd0 (by decide),
   c7_amended.2.1 ["A1", "B1"] t2sAB rnd0 (by decide),
   c7_amended.2.2.1 ["A1", "B1", "C1"] t2s3 1 rnd0 (by decide) (by decide) (by decide),
   c7_amended.2.2.2.1 ["A1", "B1"] (fun _ => "S") 1 rnd0 (by decide) (by decide)
     (by decide) (by rfl),
   c7_amended.2.2.2.2 ⟨some [("A1", "B1")], none⟩ 1 true idShuf⟩

theorem msn_2team (R : Nat) (hR : 1 ≤ R) :
    min_sessions_needed R
      ((⟨some [("A1", "B1")], none⟩ : LvlMap (List Mtch)).map distinctTeams) 1 =
      .ok 1 := by
  simp only [min_sessions_needed]
  rw [if_neg (by omega)]
  have h1 : (((⟨some [("A1", "B1")], none⟩ : LvlMap (List Mtch)).map
      distinctTeams).vals.map (fun v => v.length * 1 / 2)).sum = 1 := rfl
  rw [h1]
  have h2 : cdiv 1 R = 1 := by
    rw [cdiv]
    have : 1 + R - 1 = R := by omega
    rw [this, Nat.div_self (by omega)]
  rw [h2]
  rfl

theorem caps_one_match (R : Nat) (hR : 1 ≤ R) :
    capacities_with_free_spread_at_end R 1 1 = .ok [1, 0] := by
  obtain ⟨caps, hcaps, hlen, hsum, hbound, hmono, _⟩ := caps_spec R 1 1 hR
  have hm21 : max 2 1 = 2 := by decide
  rw [hm21] at hlen
  rw [if_neg (by omega)] at hlen
  obtain ⟨a, b, hab⟩ : ∃ a b, caps = [a, b] := by
    cases caps with
    | nil => simp at hlen
    | cons a t =>
      cases t with
      | nil => simp at hlen
      | cons b t2 =>
        cases t2 with
        | nil => exact ⟨a, b, rfl⟩
        | cons c t3 => simp at hlen
  subst hab
  have hba : b ≤ a := by
    have := List.pairwise_cons.mp hmono
    exact this.1 b (by simp)
  have hsum2 : a + b = 1 := by simpa using hsum
  have ha1 : a = 1 := by omega
  have hb0 : b = 0 := by omega
  subst ha1
  subst hb0
  exact hcaps

theorem sched_2team (R : Nat) (hR : 1 ≤ R) (shuf : List Mtch → List Mtch)
    (hshuf : ∀ xs, (shuf xs).Perm xs) :
    schedule_sessions R ⟨some [("A1", "B1")], none⟩ 1 true shuf =
      .ok [[("S1", "A1", "B1")], []] := by
  have hsh : shuf [("A1", "B1")] = [("A1", "B1")] :=
    List.perm_singleton.mp (hshuf [("A1", "B1")])
  have hrem : (⟨some [("A1", "B1")], none⟩ : LvlMap (List Mtch)).map shuf =
      ⟨some [("A1", "B1")], none⟩ := by
    simp [LvlMap.map, hsh]
  have htot : (((⟨some [("A1", "B1")], none⟩ : LvlMap (List Mtch)).vals.map
      List.length).sum) = 1 := rfl
  have hrun : run_sessions true [1, 0] (⟨some [("A1", "B1")], none⟩ : LvlMap (List Mtch)) 1 =
      .ok ([[("S1", "A1", "B1")], []], ⟨some [], none⟩, 0) := rfl
  have hdr : drain_loop true R 0 (⟨some [], none⟩ : LvlMap (List Mtch)) 0 = .ok [] := by
    rw [drain_loop]
    rfl
  simp only [schedule_sessions, hrem, htot, msn_2team R hR, caps_one_match R hR,
    hrun, hdr]
  rfl

/-- C5 (counterexample): with exactly two teams of different schools and
`G = 1` the pipeline does produce exactly one match, but the schedule has
TWO sessions, not one: the capacity planner enforces a minimum of two
sessions (`max(2, min_sessions)`), so the second session is empty — here at
`rooms = 1`. -/
theorem c5_counterexample :
    build_pairings ["A1", "B1"] t2sAB 1 rnd0 = .ok [("A1", "B1")] ∧
    schedule_sessions 1 ⟨some [("A1", "B1")], none⟩ 1 true idShuf =
      .ok [[("S1", "A1", "B1")], []] ∧
    ([[("S1", "A1", "B1")], []] : List (List Asg)).length ≠ 1 :=
  ⟨rfl, rfl, by decide⟩

/-- C5 (amended): for an input of exactly 2 teams from different schools and
`G = 1`, for every room count `R ≥ 1`, every tie-break stream and every
shuffle, the pipeline produces exactly one match, and the resulting schedule
consists of exactly TWO sessions: the first holding the single assignment
(and `R - 1` idle rooms), the second entirely idle. -/
theorem c5_amended (R : Nat) (hR : 1 ≤ R) (rnd : Nat → Nat)
    (shuf : List Mtch → List Mtch) (hshuf : ∀ xs, (shuf xs).Perm xs) :
    build_pairings ["A1", "B1"] t2sAB 1 rnd = .ok [("A1", "B1")] ∧
    schedule_sessions R ⟨some [("A1", "B1")], none⟩ 1 true shuf =
      .ok [[("S1", "A1", "B1")], []] :=
  ⟨rfl, sched_2team R hR shuf hshuf⟩

/-- Witness for the amended C5 at `R = 2`. -/
theorem c5_amended_witness :
    build_pairings ["A1", "B1"] t2sAB 1 rnd0 = .ok [("A1", "B1")] ∧
    schedule_sessions 2 ⟨some [("A1", "B1")], none⟩ 1 true idShuf =
      .ok [[("S1", "A1", "B1")], []] :=
  c5_amended 2 (by decide) rnd0 idShuf (fun xs => List.Perm.refl xs)

/-- C4 (counterexample): the claim's premise is arithmetically wrong — six
teams at `G = 2` yield `6 * 2 / 2 = 6` matches, not 9 — and its conclusion
fails too: the capacities for `R = 4`, 6 matches, minimum 2 sessions are
`[3, 3]` (the backward sweep wraps and also removes a slot from session 1),
so session 1 of the schedule holds 3 assignments, never exactly `R = 4`. -/
theorem c4_counterexample :
    build_pairings ["A1", "A2", "B1", "B2", "C1", "C2"] t2s6 2 rnd0 = .ok pairs6 ∧
    pairs6.length = 6 ∧
    capacities_with_free_spread_at_end 4 6 2 = .ok [3, 3] ∧
    schedule_sessions 4 ⟨some pairs6, none⟩ 2 true idShuf =
      .ok [[("S1", "A1", "B1"), ("S1", "A2", "C1"), ("S1", "B2", "C2")],
           [("S1", "A1", "B2"), ("S1", "A2", "C2"), ("S1", "B1", "C1")]] ∧
    (∀ sess : List Asg,
      ([[("S1", "A1", "B1"), ("S1", "A2", "C1"), ("S1", "B2", "C2")],
        [("S1", "A1", "B2"), ("S1", "A2", "C2"), ("S1", "B1", "C1")]] :
        List (List Asg)).head? = some sess → sess.length ≠ 4) := by
  refine ⟨by decide, by decide, by decide, by decide, ?_⟩
  intro sess hh
  cases hh
  decide

/-- C4 (amended): for `R = 4` and the six-team `G = 2` pairing list (6
matches), for every shuffle and mixing mode, the planned capacities are
`[3, 3]`; any schedule `schedule_sessions` returns has at least the two
planned sessions, and session 1 holds at most 3 assignments — one idle slot
lands in session 1 itself, so it is never full, refuting "session 1 contains
exactly `R = 4` assignments". -/
theorem c4_amended (mix : Bool) (shuf : List Mtch → List Mtch)
    (hshuf : ∀ xs, (shuf xs).Perm xs) (ss : List (List Asg))
    (h : schedule_sessions 4 ⟨some pairs6, none⟩ 2 mix shuf = .ok ss) :
    capacities_with_free_spread_at_end 4 6 2 = .ok [3, 3] ∧
    2 ≤ ss.length ∧
    (∀ sess : List Asg, ss.head? = some sess → sess.length ≤ 3) := by
  obtain ⟨est, caps, ss0, rem', total', ds, hest, hcaps, hrun, hds, hss⟩ :=
    sched_split 4 ⟨some pairs6, none⟩ 2 mix shuf ss h
  have hms : min_sessions_needed 4
      ((⟨some pairs6, none⟩ : LvlMap (List Mtch)).map distinctTeams) 2 = .ok 2 := by
    decide
  rw [hms] at hest
  have hest2 : est = 2 := by
    cases hest
    rfl
  subst hest2
  have htot : (((⟨some pairs6, none⟩ : LvlMap (List Mtch)).map shuf).vals.map
      List.length).sum = 6 := by
    have hlen : (shuf pairs6).length = 6 := by
      rw [(hshuf pairs6).length_eq]
      decide
    simp [LvlMap.map, LvlMap.vals, hlen]
  rw [htot] at hcaps hrun
  have h33 : capacities_with_free_spread_at_end 4 6 2 = .ok [3, 3] := by decide
  rw [h33] at hcaps
  have hc33 : caps = [3, 3] := by
    cases hcaps
    rfl
  subst hc33
  obtain ⟨k1, k2, k3, k4, k5, k6, k7, k8, k9⟩ := run_sessions_facts _ _ _ _ _ _ _ hrun
  subst hss
  have hl2 : ss0.length = 2 := by simpa using k9
  refine ⟨h33, ?_, ?_⟩
  · rw [List.length_append]
    omega
  · intro sess hh
    cases hs0 : ss0 with
    | nil =>
      rw [hs0] at hl2
      simp at hl2
    | cons a t =>
      rw [hs0] at hh
      simp only [List.cons_append, List.head?_cons, Option.some.injEq] at hh
      have hmem : a ∈ ss0 := by
        rw [hs0]
        simp
      obtain ⟨c, hc1, hc2⟩ := k6 a hmem
      have hc3 : c = 3 := by
        rcases List.mem_cons.mp hc1 with hc | hc
        · exact hc
        · simpa using hc
      rw [← hh]
      omega

/-- Witness for the amended C4 at the identity shuffle. -/
theorem c4_amended_witness :
    capacities_with_free_spread_at_end 4 6 2 = .ok [3, 3] ∧
    2 ≤ ([[("S1", "A1", "B1"), ("S1", "A2", "C1"), ("S1", "B2", "C2")],
         [("S1", "A1", "B2"), ("S1", "A2", "C2"), ("S1", "B1", "C1")]] :
         List (List Asg)).length ∧
    (∀ sess : List Asg,
      ([[("S1", "A1", "B1"), ("S1", "A2", "C1"), ("S1", "B2", "C2")],
        [("S1", "A1", "B2"), ("S1", "A2", "C2"), ("S1", "B1", "C1")]] :
        List (List Asg)).head? = some sess → sess.length ≤ 3) :=
  c4_amended true idShuf (fun xs => List.Perm.refl xs)
    [[("S1", "A1", "B1"), ("S1", "A2", "C1"), ("S1", "B2", "C2")],
     [("S1", "A1", "B2"), ("S1", "A2", "C2"), ("S1", "B1", "C1")]] (by decide)

/-- C10: in every session of the schedule returned by `schedule_sessions`,
every assignment of category `"S1"` occupies an earlier position than every
assignment of category `"S2"`, for every input, shuffle and mixing mode —
the session is assembled as `s1_matches + s2_matches`. -/
theorem c10_category_order (rooms G : Nat) (plv : LvlMap (List Mtch)) (mix : Bool)
    (shuf : List Mtch → List Mtch) (hshuf : ∀ xs, (shuf xs).Perm xs)
    (ss : List (List Asg)) (h : schedule_sessions rooms plv G mix shuf = .ok ss)
    (sess : List Asg) (hsess : sess ∈ ss) (i j : Nat)
    (hi : i < sess.length) (hj : j < sess.length)
    (h1 : (sess.get ⟨i, hi⟩).1 = "S1") (h2 : (sess.get ⟨j, hj⟩).1 = "S2") :
    i < j := by
  obtain ⟨-, -, -, p4⟩ := sched_facts rooms plv G mix shuf hshuf ss h
  obtain ⟨u, v, he, hu, hv⟩ := p4 sess hsess
  subst he
  rw [List.get_eq_getElem] at h1 h2
  have hlen : (u ++ v).length = u.length + v.length := List.length_append u v
  have hiu : i < u.length := by
    by_contra hge
    push_neg at hge
    have hb : i - u.length < v.length := by omega
    rw [List.getElem_append_right hge] at h1
    have hmem : v.get ⟨i - u.length, hb⟩ ∈ v := List.get_mem v _ hb
    have := hv _ hmem
    rw [List.get_eq_getElem] at this
    rw [this] at h1
    exact absurd h1 (by decide)
  have hju : u.length ≤ j := by
    by_contra hlt
    push_neg at hlt
    rw [List.getElem_append_left hlt] at h2
    have hmem : u.get ⟨j, hlt⟩ ∈ u := List.get_mem u _ hlt
    have := hu _ hmem
    rw [List.get_eq_getElem] at this
    rw [this] at h2
    exact absurd h2 (by decide)
  omega

/-- Witness for C10 on a run with mixed sessions: two categories, one match
per session of each, `i = 0` (the `"S1"` slot) precedes `j = 1` (the `"S2"`
slot). -/
theorem c10_category_order_witness : (0 : Nat) < 1 :=
  c10_category_order 4 1
    ⟨some [("A1", "B1"), ("C1", "D1")], some [("X1", "Y1"), ("Z1", "W1")]⟩ true
    idShuf (fun xs => List.Perm.refl xs)
    [[("S1", "A1", "B1"), ("S2", "X1", "Y1")],
     [("S1", "C1", "D1"), ("S2", "Z1", "W1")]] rfl
    [("S1", "A1", "B1"), ("S2", "X1", "Y1")] (by simp) 0 1
    (by decide) (by decide) rfl rfl

end DS
